import Mathlib

/-
  Verification of the self-scaling chained hash table implemented in
  drivers/misc/mediatek/gpu/gpu_rgx/m1.8ED4490469/services/shared/common/hash.c.

  Shallow embedding conventions:
  * The bucket array `BUCKET **ppBucketTable` is a `List (List (Bucket K))`:
    one chain (singly linked list of buckets, head first) per slot.
  * Keys are an abstract type `K`; the C key is an opaque byte buffer of the
    table's fixed key size, so a fixed type parameter models "a key of the
    table's key size".  The pluggable strategy pair is passed as the
    parameters `hf` (pfnHashFunc, receiving the key and the table length,
    the key size being folded into `K`) and `kc` (pfnKeyComp).
  * `uintptr_t` values are `Nat`; the reserved sentinel is `0`.  The counts
    and sizes are `IMG_UINT32`; they are modelled as `Nat` (the arithmetic
    performed on them - increment, decrement, doubling, halving - cannot
    overflow for any reachable table, whose count is bounded by the number
    of inserts performed).
  * The allocator is modelled by explicit `Bool` oracles (`true` = the
    OSAllocMem call succeeds); OSFreeMem is a no-op on the abstract state.
  * The reentrancy guard `hRefCount` is carried in the state; `_inc_ref`
    and `_dec_ref` increment and decrement it (the diagnostic logging and
    the abort that `_dec_ref` performs when it observes a counter other
    than 1 are not modelled - the counter value itself is).
-/

/-- Integrity tag written into every live bucket (BUCKET_SIG in hash.c). -/
def BUCKET_SIG : Nat := 0xBEA57FED

/-- Tombstone tag written into a bucket as it is freed (BUCKET_FREE in hash.c). -/
def BUCKET_FREE : Nat := 0xBCE7DEAD

/-- The status code PVRSRV_OK returned by a successful iteration callback. -/
def PVRSRV_OK : Nat := 0

/-- One chain node of the hash table (struct _BUCKET_ in hash.c): integrity
tag `ui32Sig`, value `v` and embedded copy `k` of the key.  The `pNext` link
is represented by the position in the chain list. -/
structure Bucket (K : Type) where
  ui32Sig : Nat
  v : Nat
  k : K
deriving DecidableEq, Repr

/-- The hash table state (struct _HASH_TABLE_ in hash.c).  `uKeySize`,
`pfnHashFunc` and `pfnKeyComp` are fixed at creation; they are carried as
the type parameter `K` and the function parameters `hf`/`kc` of each
operation instead of as fields. -/
structure HASH_TABLE (K : Type) where
  uSize : Nat
  uCount : Nat
  uMinimumSize : Nat
  ppBucketTable : List (List (Bucket K))
  hRefCount : Nat
deriving DecidableEq, Repr

section Model

variable {K : Type}

/-- KEY_TO_INDEX macro: pfnHashFunc(uKeySize, key, uSize) % uSize. -/
def KEY_TO_INDEX (hf : K → Nat → Nat) (k : K) (uSize : Nat) : Nat :=
  hf k uSize % uSize

/-- `_inc_ref`: the reentrancy-guard counter is incremented on entry to every
public operation (the diagnostic printed when it was already nonzero is not
modelled). -/
def _inc_ref (t : HASH_TABLE K) : HASH_TABLE K :=
  { t with hRefCount := t.hRefCount + 1 }

/-- `_dec_ref`: the guard counter is decremented on exit (the fatal abort
taken when the observed value is not 1 is not modelled; the counter is). -/
def _dec_ref (t : HASH_TABLE K) : HASH_TABLE K :=
  { t with hRefCount := t.hRefCount - 1 }

/-- `_ChainInsert`: prepend the bucket to the chain of the slot selected by
KEY_TO_INDEX against the given table array and size. -/
def _ChainInsert (hf : K → Nat → Nat) (pBucket : Bucket K)
    (ppBucketTable : List (List (Bucket K))) (uSize : Nat) :
    List (List (Bucket K)) :=
  let uIndex := KEY_TO_INDEX hf pBucket.k uSize
  ppBucketTable.set uIndex (pBucket :: ppBucketTable.getD uIndex [])

/-- `_Rehash`: walk every old slot in index order and every chain head
first, re-inserting each bucket into the new array (bucket nodes are reused,
only their chain membership changes). -/
def _Rehash (hf : K → Nat → Nat) (ppOldTable ppNewTable : List (List (Bucket K)))
    (uNewSize : Nat) : List (List (Bucket K)) :=
  ppOldTable.foldl
    (fun acc chain => chain.foldl (fun acc2 b => _ChainInsert hf b acc2 uNewSize) acc)
    ppNewTable

/-- `_Resize`: no-op returning success when the requested size equals the
current one; otherwise allocate a fresh null-initialised array (`allocOk`
models the OSAllocMem outcome), rehash every bucket into it and adopt it
together with the new size; on allocation failure return failure with the
table untouched. -/
def _Resize (hf : K → Nat → Nat) (t : HASH_TABLE K) (uNewSize : Nat)
    (allocOk : Bool) : Bool × HASH_TABLE K :=
  if uNewSize ≠ t.uSize then
    if allocOk then
      (true, { t with
        ppBucketTable := _Rehash hf t.ppBucketTable (List.replicate uNewSize []) uNewSize,
        uSize := uNewSize })
    else
      (false, t)
  else
    (true, t)

/-- `HASH_Create_Extended`: validate the arguments (zero initial length or
zero key size fail before any allocation; the null-strategy check has no
counterpart since Lean functions are total), then build the table with
`uSize = uMinimumSize = uInitialLen`, zero count and null slots.  `allocOk1`
and `allocOk2` model the two OSAllocMem calls (table struct, slot array). -/
def HASH_Create_Extended (uInitialLen uKeySize : Nat) (allocOk1 allocOk2 : Bool) :
    Option (HASH_TABLE K) :=
  if uInitialLen = 0 ∨ uKeySize = 0 then none
  else if allocOk1 then
    if allocOk2 then
      some { uSize := uInitialLen, uCount := 0, uMinimumSize := uInitialLen,
             ppBucketTable := List.replicate uInitialLen [], hRefCount := 0 }
    else none
  else none

/-- The bucket-freeing loop of `HASH_Delete` taken when `uCount != 0`:
`for (i = 0; i < uCount; i++) { ppBucketTable[i]->ui32Sig = BUCKET_FREE;
OSFreeMem(ppBucketTable[i]); }`.  The i-th element of the result is the
bucket the loop frees on iteration i - the head of slot i; `none` means
`ppBucketTable[i]` was NULL and the loop dereferences a null pointer. -/
def HASH_Delete_freed (t : HASH_TABLE K) : List (Option (Bucket K)) :=
  (List.range t.uCount).map (fun i => (t.ppBucketTable.getD i []).head?)

/-- `HASH_Insert_Extended`: enter the guard, allocate a bucket
(`bucketAllocOk` models the OSAllocMem outcome; on failure the function
returns IMG_FALSE immediately - exactly as in the source, without reaching
`_dec_ref`), fill it (BUCKET_SIG tag, value, key copy), prepend it via
`_ChainInsert` at the current size, bump the count, attempt a grow-resize to
twice the size when count*2 > size (ignoring the resize result), release the
guard and return IMG_TRUE. -/
def HASH_Insert_Extended (hf : K → Nat → Nat) (t : HASH_TABLE K) (pKey : K)
    (v : Nat) (bucketAllocOk resizeAllocOk : Bool) : Bool × HASH_TABLE K :=
  let t1 := _inc_ref t
  if bucketAllocOk then
    let pBucket : Bucket K := ⟨BUCKET_SIG, v, pKey⟩
    let t2 := { t1 with
      ppBucketTable := _ChainInsert hf pBucket t1.ppBucketTable t1.uSize,
      uCount := t1.uCount + 1 }
    let t3 := if t2.uSize < t2.uCount * 2
              then (_Resize hf t2 (t2.uSize * 2) resizeAllocOk).2
              else t2
    (true, _dec_ref t3)
  else
    (false, t1)

/-- The chain scan of `HASH_Remove_Extended`: the predecessor-aware cursor
unlinks the first bucket whose key compares equal, returning its value and
the chain without it; `none` when no bucket matches. -/
def chainRemove (kc : K → K → Bool) (pKey : K) :
    List (Bucket K) → Option (Nat × List (Bucket K))
  | [] => none
  | b :: rest =>
    if kc b.k pKey then some (b.v, rest)
    else
      match chainRemove kc pKey rest with
      | none => none
      | some (v, rest2) => some (v, b :: rest2)

/-- `HASH_Remove_Extended`: enter the guard, scan the chain of the key's
slot; on the first match unlink the bucket (its BUCKET_FREE tombstoning and
freeing leave the abstract state), decrement the count, attempt a
shrink-resize to max(size/2, minimumSize) when size > count*4 and
size > minimumSize (ignoring the resize result), release the guard and
return the removed value; when nothing matches release the guard and return
the sentinel 0. -/
def HASH_Remove_Extended (hf : K → Nat → Nat) (kc : K → K → Bool)
    (t : HASH_TABLE K) (pKey : K) (resizeAllocOk : Bool) : Nat × HASH_TABLE K :=
  let t1 := _inc_ref t
  let uIndex := KEY_TO_INDEX hf pKey t1.uSize
  match chainRemove kc pKey (t1.ppBucketTable.getD uIndex []) with
  | some (v, newChain) =>
    let t2 := { t1 with
      ppBucketTable := t1.ppBucketTable.set uIndex newChain,
      uCount := t1.uCount - 1 }
    let t3 := if t2.uCount * 4 < t2.uSize ∧ t2.uMinimumSize < t2.uSize
              then (_Resize hf t2 (max (t2.uSize / 2) t2.uMinimumSize) resizeAllocOk).2
              else t2
    (v, _dec_ref t3)
  | none => (0, _dec_ref t1)

/-- The chain scan of `HASH_Retrieve_Extended`: value of the first bucket
whose key compares equal, or the sentinel 0. -/
def chainRetrieve (kc : K → K → Bool) (pKey : K) : List (Bucket K) → Nat
  | [] => 0
  | b :: rest => if kc b.k pKey then b.v else chainRetrieve kc pKey rest

/-- `HASH_Retrieve_Extended`: non-mutating lookup in the chain of the key's
slot (the guard is entered and released around the scan, netting to the
original counter; no resize is performed, so only the returned value is
modelled). -/
def HASH_Retrieve_Extended (hf : K → Nat → Nat) (kc : K → K → Bool)
    (t : HASH_TABLE K) (pKey : K) : Nat :=
  chainRetrieve kc pKey (t.ppBucketTable.getD (KEY_TO_INDEX hf pKey t.uSize) [])

/-- One chain of the `HASH_Iterate` loop: invoke the callback on each bucket
head first; a non-PVRSRV_OK result stops the walk.  The first component is
the resulting status, the second the ghost trace of the callback invocations
performed (the C callback receives the first word of the key; here it
receives the key). -/
def chainIterate (cb : K → Nat → Nat) : List (Bucket K) → Nat × List (K × Nat)
  | [] => (PVRSRV_OK, [])
  | b :: rest =>
    let e := cb b.k b.v
    if e ≠ PVRSRV_OK then (e, [(b.k, b.v)])
    else
      let r := chainIterate cb rest
      (r.1, (b.k, b.v) :: r.2)

/-- The slot loop of `HASH_Iterate` over the whole bucket array, with the
ghost trace of callback invocations. -/
def tableIterate (cb : K → Nat → Nat) :
    List (List (Bucket K)) → Nat × List (K × Nat)
  | [] => (PVRSRV_OK, [])
  | chain :: rest =>
    let r := chainIterate cb chain
    if r.1 ≠ PVRSRV_OK then r
    else
      let r2 := tableIterate cb rest
      (r2.1, r.2 ++ r2.2)

/-- `HASH_Iterate`: walk every slot in index order and every chain head
first, invoking the callback per entry; the first non-PVRSRV_OK callback
result is returned immediately, otherwise PVRSRV_OK. -/
def HASH_Iterate (cb : K → Nat → Nat) (t : HASH_TABLE K) : Nat :=
  (tableIterate cb t.ppBucketTable).1

/-- The live entries of the table: concatenation of all chains in slot
order (also the visiting order of `_Rehash` and `HASH_Iterate`). -/
def tableEntries (t : HASH_TABLE K) : List (Bucket K) :=
  t.ppBucketTable.flatten

/-- The key/value pairs in iteration order. -/
def iterEntries (t : HASH_TABLE K) : List (K × Nat) :=
  (t.ppBucketTable.map (fun c => c.map (fun b => (b.k, b.v)))).flatten

/-- Structural well-formedness established by `HASH_Create_Extended` and
preserved by every operation: positive size, slot array of length `uSize`,
positive minimum not above the size. -/
def Basic (t : HASH_TABLE K) : Prop :=
  0 < t.uSize ∧ t.ppBucketTable.length = t.uSize ∧
  0 < t.uMinimumSize ∧ t.uMinimumSize ≤ t.uSize

/-- Full well-formedness: `Basic`, the count equal to the number of live
entries, and every bucket sitting in the slot its key hashes to. -/
def WF (hf : K → Nat → Nat) (t : HASH_TABLE K) : Prop :=
  Basic t ∧ t.uCount = (tableEntries t).length ∧
  ∀ i < t.ppBucketTable.length, ∀ b ∈ t.ppBucketTable.getD i [],
    KEY_TO_INDEX hf b.k t.uSize = i

/-- No live entry's key compares equal to `k`. -/
def NoKeyIn (kc : K → K → Bool) (t : HASH_TABLE K) (k : K) : Prop :=
  ∀ b ∈ tableEntries t, kc b.k k = false

/-- The live entries carry pairwise distinct keys (no two compare equal). -/
def DistinctKeys (kc : K → K → Bool) (t : HASH_TABLE K) : Prop :=
  (tableEntries t).Pairwise (fun a b => kc a.k b.k = false)

/-- An operation of a client session: an insert (with the two allocation
outcomes) or a remove (with the resize allocation outcome). -/
inductive HOp (K : Type) where
  | ins (k : K) (v : Nat) (bOk rOk : Bool)
  | rem (k : K) (rOk : Bool)

/-- Run a sequence of operations, also counting the successful inserts and
the removes that found their key. -/
def runOps (hf : K → Nat → Nat) (kc : K → K → Bool) :
    List (HOp K) → HASH_TABLE K → HASH_TABLE K × Nat × Nat
  | [], t => (t, 0, 0)
  | HOp.ins k v bOk rOk :: rest, t =>
    let r := HASH_Insert_Extended hf t k v bOk rOk
    let s := runOps hf kc rest r.2
    (s.1, (if r.1 then 1 else 0) + s.2.1, s.2.2)
  | HOp.rem k rOk :: rest, t =>
    let found := (chainRemove kc k
      (t.ppBucketTable.getD (KEY_TO_INDEX hf k t.uSize) [])).isSome
    let r := HASH_Remove_Extended hf kc t k rOk
    let s := runOps hf kc rest r.2
    (s.1, s.2.1, (if found then 1 else 0) + s.2.2)

/-- Proof helper: folding `_ChainInsert` over a flat list of buckets; the
rehash loop is this fold applied to the concatenation of the old chains. -/
def insertAll (hf : K → Nat → Nat) (s : Nat) (bs : List (Bucket K))
    (L : List (List (Bucket K))) : List (List (Bucket K)) :=
  bs.foldl (fun acc b => _ChainInsert hf b acc s) L

/-- Proof helper: the early-exit visitor loop expressed over a flat list of
key/value pairs (status, trace of invocations). -/
def listIterate (cb : K → Nat → Nat) : List (K × Nat) → Nat × List (K × Nat)
  | [] => (PVRSRV_OK, [])
  | e :: rest =>
    let s := cb e.1 e.2
    if s ≠ PVRSRV_OK then (s, [e])
    else
      let r := listIterate cb rest
      (r.1, e :: r.2)

/-- Modelled from the spec (section 8, "count equals the number of distinct
keys currently inserted minus removed"): the set of distinct keys currently
inserted, folded over the operation sequence - an insert adds the key if no
key comparing equal is present, a remove deletes the first key comparing
equal.  This is the spec side of claim C6, to be compared with the code's
`uCount`. -/
def specDistinctKeys (kc : K → K → Bool) : List (HOp K) → List K → List K
  | [], acc => acc
  | HOp.ins k _ _ _ :: rest, acc =>
    specDistinctKeys kc rest (if acc.any (fun k2 => kc k2 k) then acc else k :: acc)
  | HOp.rem k _ :: rest, acc =>
    specDistinctKeys kc rest (acc.eraseP (fun k2 => kc k2 k))

end Model

/-! Concrete instances used by the witnesses and counterexamples: keys are a
single machine word (`Nat`), hashed by the identity strategy (a legal
pluggable strategy - the hash may ignore the table length, as the default
strategy does) and compared by equality. -/

/-- Witness hash strategy: the key itself. -/
def exHf : Nat → Nat → Nat := fun k _ => k

/-- Witness compare strategy: word equality. -/
def exKc : Nat → Nat → Bool := fun a b => a == b

/-- A live bucket with the given value and key. -/
def exB (v k : Nat) : Bucket Nat := ⟨BUCKET_SIG, v, k⟩

/-- Empty table of size 1 (minimum 1). -/
def exEmpty1 : HASH_TABLE Nat := ⟨1, 0, 1, [[]], 0⟩

/-- Size-2 table holding key 0 with value 7. -/
def exOne2 : HASH_TABLE Nat := ⟨2, 1, 2, [[exB 7 0], []], 0⟩

/-- Size-2 table holding key 0 twice: value 9 at the chain head (inserted
last), value 7 behind it. -/
def exDup2 : HASH_TABLE Nat := ⟨2, 2, 1, [[exB 9 0, exB 7 0], []], 0⟩

/-- Size-8 table (minimum 2) holding keys 0 and 1 with values 7 and 9. -/
def exTwo8 : HASH_TABLE Nat :=
  ⟨8, 2, 2, [[exB 7 0], [exB 9 1], [], [], [], [], [], []], 0⟩

/-- Size-2 table (count 2) whose two entries both chain in slot 1 and whose
slot 0 is empty, as left behind by two inserts of keys hashing to 1. -/
def exChain2 : HASH_TABLE Nat := ⟨2, 2, 1, [[], [exB 7 1, exB 9 3]], 0⟩

/-- Operation sequence used by the C6 witness: two inserts of key 3 (the
second a duplicate), a remove of key 3 and a remove of the absent key 5. -/
def exOps : List (HOp Nat) :=
  [HOp.ins 3 7 true true, HOp.ins 3 9 true true, HOp.rem 3 true,
   HOp.rem 5 true]

/-- Iteration callback returning success on every entry. -/
def exCbOk : Nat → Nat → Nat := fun _ _ => PVRSRV_OK

/-- Iteration callback aborting with status 3 on key 1. -/
def exCbFail : Nat → Nat → Nat := fun k _ => if k = 1 then 3 else PVRSRV_OK

/-! Generic list lemmas used throughout. -/

section ListLemmas

variable {α : Type}

theorem getD_set_self (l : List α) (i : Nat) (c d : α) (h : i < l.length) :
    (l.set i c).getD i d = c := by
  induction l generalizing i with
  | nil => simp at h
  | cons a as ih =>
    cases i with
    | zero => rfl
    | succ n =>
      simp only [List.length_cons, Nat.succ_lt_succ_iff] at h
      simpa [List.set, List.getD] using ih n h

theorem getD_set_ne (l : List α) (i j : Nat) (c d : α) (h : j ≠ i) :
    (l.set i c).getD j d = l.getD j d := by
  induction l generalizing i j with
  | nil => simp [List.set]
  | cons a as ih =>
    cases i with
    | zero =>
      cases j with
      | zero => exact absurd rfl h
      | succ m => rfl
    | succ n =>
      cases j with
      | zero => rfl
      | succ m =>
        simpa [List.set, List.getD] using ih n m (fun hmn => h (by simp [hmn]))

theorem getD_nil_of_le (l : List α) (i : Nat) (h : l.length ≤ i) (d : α) :
    l.getD i d = d := by
  induction l generalizing i with
  | nil => cases i <;> rfl
  | cons a as ih =>
    cases i with
    | zero => simp at h
    | succ n =>
      simp only [List.length_cons, Nat.succ_le_succ_iff] at h
      simpa [List.getD] using ih n h

theorem flatten_decomp (L : List (List α)) (i : Nat) (h : i < L.length) :
    L.flatten = (L.take i).flatten ++ L.getD i [] ++ (L.drop (i + 1)).flatten := by
  induction L generalizing i with
  | nil => simp at h
  | cons a as ih =>
    cases i with
    | zero => simp [List.getD]
    | succ n =>
      simp only [List.length_cons, Nat.succ_lt_succ_iff] at h
      simp only [List.flatten_cons, List.take_succ_cons, List.drop_succ_cons]
      have := ih n h
      simp only [List.getD] at this ⊢
      rw [this]
      simp [List.append_assoc]

theorem flatten_set (L : List (List α)) (i : Nat) (c : List α) (h : i < L.length) :
    (L.set i c).flatten = (L.take i).flatten ++ c ++ (L.drop (i + 1)).flatten := by
  induction L generalizing i with
  | nil => simp at h
  | cons a as ih =>
    cases i with
    | zero => simp
    | succ n =>
      simp only [List.length_cons, Nat.succ_lt_succ_iff] at h
      simp only [List.set, List.flatten_cons, List.take_succ_cons, List.drop_succ_cons]
      rw [ih n h]
      simp [List.append_assoc]

theorem mem_getD_flatten (L : List (List α)) (i : Nat) (x : α)
    (h : x ∈ L.getD i []) : x ∈ L.flatten := by
  by_cases hi : i < L.length
  · rw [flatten_decomp L i hi]
    simp only [List.mem_append]
    exact Or.inl (Or.inr h)
  · rw [getD_nil_of_le L i (Nat.le_of_not_lt hi)] at h
    simp at h

theorem flatten_set_cons_perm (L : List (List α)) (i : Nat) (x : α)
    (h : i < L.length) :
    ((L.set i (x :: L.getD i [])).flatten).Perm (x :: L.flatten) := by
  rw [flatten_set L i _ h, flatten_decomp L i h]
  have h1 : (L.take i).flatten ++ (x :: L.getD i []) ++ (L.drop (i + 1)).flatten
      = (L.take i).flatten ++ x :: (L.getD i [] ++ (L.drop (i + 1)).flatten) := by
    simp [List.append_assoc]
  rw [h1, List.append_assoc]
  exact List.perm_middle

end ListLemmas

/-! Characterization of `_ChainInsert`, `insertAll` and `_Rehash`. -/

section ChainLemmas

variable {K : Type}

theorem keyToIndex_lt (hf : K → Nat → Nat) (k : K) (s : Nat) (hs : 0 < s) :
    KEY_TO_INDEX hf k s < s :=
  Nat.mod_lt _ hs

theorem chainInsert_length (hf : K → Nat → Nat) (b : Bucket K)
    (L : List (List (Bucket K))) (s : Nat) :
    (_ChainInsert hf b L s).length = L.length := by
  simp [_ChainInsert]

theorem chainInsert_getD_eq (hf : K → Nat → Nat) (b : Bucket K)
    (L : List (List (Bucket K))) (s : Nat)
    (h : KEY_TO_INDEX hf b.k s < L.length) :
    (_ChainInsert hf b L s).getD (KEY_TO_INDEX hf b.k s) [] =
      b :: L.getD (KEY_TO_INDEX hf b.k s) [] := by
  simp only [_ChainInsert]
  exact getD_set_self L _ _ _ h

theorem chainInsert_getD_ne (hf : K → Nat → Nat) (b : Bucket K)
    (L : List (List (Bucket K))) (s j : Nat)
    (h : j ≠ KEY_TO_INDEX hf b.k s) :
    (_ChainInsert hf b L s).getD j [] = L.getD j [] := by
  simp only [_ChainInsert]
  exact getD_set_ne L _ j _ _ h

theorem chainInsert_flatten_perm (hf : K → Nat → Nat) (b : Bucket K)
    (L : List (List (Bucket K))) (s : Nat)
    (h : KEY_TO_INDEX hf b.k s < L.length) :
    ((_ChainInsert hf b L s).flatten).Perm (b :: L.flatten) := by
  simp only [_ChainInsert]
  exact flatten_set_cons_perm L _ b h

theorem insertAll_nil (hf : K → Nat → Nat) (s : Nat)
    (L : List (List (Bucket K))) : insertAll hf s [] L = L := rfl

theorem insertAll_cons (hf : K → Nat → Nat) (s : Nat) (b : Bucket K)
    (bs : List (Bucket K)) (L : List (List (Bucket K))) :
    insertAll hf s (b :: bs) L = insertAll hf s bs (_ChainInsert hf b L s) := rfl

theorem insertAll_length (hf : K → Nat → Nat) (s : Nat) (bs : List (Bucket K))
    (L : List (List (Bucket K))) : (insertAll hf s bs L).length = L.length := by
  induction bs generalizing L with
  | nil => rfl
  | cons b rest ih => rw [insertAll_cons, ih, chainInsert_length]

theorem insertAll_getD (hf : K → Nat → Nat) (s : Nat) (bs : List (Bucket K))
    (L : List (List (Bucket K))) (hlen : L.length = s) (hs : 0 < s) (m : Nat) :
    (insertAll hf s bs L).getD m [] =
      (bs.filter (fun b => KEY_TO_INDEX hf b.k s == m)).reverse ++ L.getD m [] := by
  induction bs generalizing L with
  | nil => simp [insertAll_nil]
  | cons b rest ih =>
    rw [insertAll_cons, ih (_ChainInsert hf b L s) (by rw [chainInsert_length]; exact hlen)]
    by_cases hm : KEY_TO_INDEX hf b.k s = m
    · have hidx : KEY_TO_INDEX hf b.k s < L.length := by
        rw [hlen]; exact keyToIndex_lt hf b.k s hs
      rw [← hm, chainInsert_getD_eq hf b L s hidx]
      simp [List.filter_cons, hm, List.append_assoc]
    · rw [chainInsert_getD_ne hf b L s m (fun hh => hm hh.symm)]
      simp [List.filter_cons, hm]

theorem insertAll_flatten_perm (hf : K → Nat → Nat) (s : Nat)
    (bs : List (Bucket K)) (L : List (List (Bucket K)))
    (hlen : L.length = s) (hs : 0 < s) :
    ((insertAll hf s bs L).flatten).Perm (bs ++ L.flatten) := by
  induction bs generalizing L with
  | nil => simp [insertAll_nil]
  | cons b rest ih =>
    rw [insertAll_cons]
    have h1 := ih (_ChainInsert hf b L s) (by rw [chainInsert_length]; exact hlen)
    have h2 : ((_ChainInsert hf b L s).flatten).Perm (b :: L.flatten) :=
      chainInsert_flatten_perm hf b L s (by rw [hlen]; exact keyToIndex_lt hf b.k s hs)
    exact h1.trans ((List.Perm.append_left rest h2).trans List.perm_middle)

theorem getD_replicate_nil (n m : Nat) :
    (List.replicate n ([] : List (Bucket K))).getD m [] = [] := by
  induction n generalizing m with
  | zero => cases m <;> rfl
  | succ p ih =>
    cases m with
    | zero => rfl
    | succ q => simp [List.replicate, List.getD]

theorem flatten_replicate_nil (n : Nat) :
    (List.replicate n ([] : List (Bucket K))).flatten = [] := by
  induction n with
  | zero => rfl
  | succ p ih => simp [List.replicate]

theorem rehash_eq_insertAll (hf : K → Nat → Nat)
    (old new : List (List (Bucket K))) (s : Nat) :
    _Rehash hf old new s = insertAll hf s old.flatten new := by
  rw [_Rehash, insertAll, List.foldl_flatten]

end ChainLemmas

/-! Characterization of `_Resize` and of the chain scans. -/

section ResizeLemmas

variable {K : Type}

theorem resize_noop (hf : K → Nat → Nat) (t : HASH_TABLE K) (ns : Nat)
    (ok : Bool) (h : ns = t.uSize) : _Resize hf t ns ok = (true, t) := by
  simp [_Resize, h]

theorem resize_fail (hf : K → Nat → Nat) (t : HASH_TABLE K) (ns : Nat)
    (h : ns ≠ t.uSize) : _Resize hf t ns false = (false, t) := by
  simp [_Resize, h]

theorem resize_snd_false (hf : K → Nat → Nat) (t : HASH_TABLE K) (ns : Nat) :
    (_Resize hf t ns false).2 = t := by
  by_cases h : ns = t.uSize
  · rw [resize_noop hf t ns false h]
  · rw [resize_fail hf t ns h]

theorem resize_ok_spec (hf : K → Nat → Nat) (t : HASH_TABLE K) (ns : Nat)
    (hne : ns ≠ t.uSize) (hs : 0 < ns) :
    (_Resize hf t ns true).2.uSize = ns ∧
    (_Resize hf t ns true).2.uCount = t.uCount ∧
    (_Resize hf t ns true).2.uMinimumSize = t.uMinimumSize ∧
    (_Resize hf t ns true).2.hRefCount = t.hRefCount ∧
    (_Resize hf t ns true).2.ppBucketTable.length = ns ∧
    (∀ m, (_Resize hf t ns true).2.ppBucketTable.getD m [] =
      ((tableEntries t).filter (fun b => KEY_TO_INDEX hf b.k ns == m)).reverse) ∧
    (tableEntries (_Resize hf t ns true).2).Perm (tableEntries t) := by
  have hrw : _Resize hf t ns true = (true, { t with
      ppBucketTable := _Rehash hf t.ppBucketTable (List.replicate ns []) ns,
      uSize := ns }) := by
    simp [_Resize, hne]
  rw [hrw]
  refine ⟨rfl, rfl, rfl, rfl, ?_, ?_, ?_⟩
  · simp only [rehash_eq_insertAll, insertAll_length, List.length_replicate]
  · intro m
    simp only [rehash_eq_insertAll]
    rw [insertAll_getD hf ns _ _ (List.length_replicate ns []) hs m,
      getD_replicate_nil, List.append_nil]
    rfl
  · simp only [tableEntries, rehash_eq_insertAll]
    have := insertAll_flatten_perm hf ns t.ppBucketTable.flatten
      (List.replicate ns []) (List.length_replicate ns []) hs
    rwa [flatten_replicate_nil, List.append_nil] at this

end ResizeLemmas

section ScanLemmas

variable {K : Type} (kc : K → K → Bool) (k : K)

theorem chainRetrieve_cons_match (b : Bucket K) (c : List (Bucket K))
    (h : kc b.k k = true) : chainRetrieve kc k (b :: c) = b.v := by
  simp [chainRetrieve, h]

theorem chainRetrieve_no_match (c : List (Bucket K))
    (h : ∀ b ∈ c, kc b.k k = false) : chainRetrieve kc k c = 0 := by
  induction c with
  | nil => rfl
  | cons b rest ih =>
    have hb := h b (by simp)
    simp only [chainRetrieve, hb]
    simp only [Bool.false_eq_true, if_false]
    exact ih (fun x hx => h x (by simp [hx]))

theorem chainRetrieve_unique (c : List (Bucket K)) (v : Nat)
    (hex : ∃ b ∈ c, kc b.k k = true)
    (hall : ∀ b ∈ c, kc b.k k = true → b.v = v) :
    chainRetrieve kc k c = v := by
  induction c with
  | nil => simp at hex
  | cons b rest ih =>
    by_cases hb : kc b.k k = true
    · rw [chainRetrieve_cons_match kc k b rest hb]
      exact hall b (by simp) hb
    · simp only [chainRetrieve, hb, if_false]
      obtain ⟨x, hx, hxk⟩ := hex
      rcases List.mem_cons.mp hx with h1 | h1
      · exact absurd (h1 ▸ hxk) hb
      · exact ih ⟨x, h1, hxk⟩ (fun y hy hyk => hall y (by simp [hy]) hyk)

theorem chainRetrieve_mem (c : List (Bucket K))
    (hex : ∃ b ∈ c, kc b.k k = true) :
    ∃ b ∈ c, kc b.k k = true ∧ chainRetrieve kc k c = b.v := by
  induction c with
  | nil => simp at hex
  | cons b rest ih =>
    by_cases hb : kc b.k k = true
    · exact ⟨b, by simp, hb, chainRetrieve_cons_match kc k b rest hb⟩
    · simp only [chainRetrieve, hb, if_false]
      obtain ⟨x, hx, hxk⟩ := hex
      rcases List.mem_cons.mp hx with h1 | h1
      · exact absurd (h1 ▸ hxk) hb
      · obtain ⟨y, hy, hyk, hyv⟩ := ih ⟨x, h1, hxk⟩
        exact ⟨y, by simp [hy], hyk, hyv⟩

theorem chainRetrieve_append_no_match (c1 c2 : List (Bucket K))
    (h : ∀ b ∈ c1, kc b.k k = false) :
    chainRetrieve kc k (c1 ++ c2) = chainRetrieve kc k c2 := by
  induction c1 with
  | nil => rfl
  | cons b rest ih =>
    have hb := h b (by simp)
    simp only [List.cons_append, chainRetrieve, hb]
    simp only [Bool.false_eq_true, if_false]
    exact ih (fun x hx => h x (by simp [hx]))

theorem chainRemove_eq_none_iff (c : List (Bucket K)) :
    chainRemove kc k c = none ↔ ∀ b ∈ c, kc b.k k = false := by
  induction c with
  | nil => simp [chainRemove]
  | cons b rest ih =>
    by_cases hb : kc b.k k = true
    · simp only [chainRemove, hb, if_true]
      constructor
      · intro h
        exact Option.noConfusion h
      · intro hall
        have := hall b (by simp)
        rw [hb] at this
        exact Bool.noConfusion this
    · have hb2 : kc b.k k = false := by
        cases hkc : kc b.k k
        · rfl
        · exact absurd hkc hb
      simp only [chainRemove, hb2, Bool.false_eq_true, if_false]
      cases hcr : chainRemove kc k rest with
      | none =>
        simp only [true_iff]
        intro x hx
        rcases List.mem_cons.mp hx with h1 | h1
        · exact h1 ▸ hb2
        · exact (ih.mp hcr) x h1
      | some p =>
        constructor
        · intro h
          exact Option.noConfusion h
        · intro hall
          have hnone : chainRemove kc k rest = none :=
            ih.mpr (fun x hx => hall x (by simp [hx]))
          rw [hnone] at hcr
          exact Option.noConfusion hcr

theorem chainRemove_some_spec (c : List (Bucket K)) (v : Nat)
    (rest : List (Bucket K)) (h : chainRemove kc k c = some (v, rest)) :
    ∃ c1 x c2, c = c1 ++ x :: c2 ∧ (∀ y ∈ c1, kc y.k k = false) ∧
      kc x.k k = true ∧ v = x.v ∧ rest = c1 ++ c2 := by
  induction c generalizing v rest with
  | nil => exact Option.noConfusion h
  | cons b tail ih =>
    by_cases hb : kc b.k k = true
    · refine ⟨[], b, tail, by simp, by simp, hb, ?_, ?_⟩
      · simp only [chainRemove, hb, if_true, Option.some.injEq, Prod.mk.injEq] at h
        exact h.1.symm
      · simp only [chainRemove, hb, if_true, Option.some.injEq, Prod.mk.injEq] at h
        simp [h.2.symm]
    · have hb2 : kc b.k k = false := by
        cases hkc : kc b.k k
        · rfl
        · exact absurd hkc hb
      simp only [chainRemove, hb2, Bool.false_eq_true, if_false] at h
      cases hcr : chainRemove kc k tail with
      | none => rw [hcr] at h; exact Option.noConfusion h
      | some p =>
        rw [hcr] at h
        obtain ⟨v2, rest2⟩ := p
        simp only [Option.some.injEq, Prod.mk.injEq] at h
        obtain ⟨c1, x, c2, hc, hno, hx, hv, hrest⟩ := ih v2 rest2 hcr
        refine ⟨b :: c1, x, c2, by simp [hc], ?_, hx, by rw [← h.1, hv], ?_⟩
        · intro y hy
          rcases List.mem_cons.mp hy with h1 | h1
          · exact h1 ▸ hb2
          · exact hno y h1
        · rw [← h.2, hrest]
          simp

theorem chainRemove_isSome_iff (c : List (Bucket K)) :
    (chainRemove kc k c).isSome = true ↔ ∃ b ∈ c, kc b.k k = true := by
  cases hcr : chainRemove kc k c with
  | none =>
    simp only [Option.isSome_none]
    constructor
    · intro h
      exact Bool.noConfusion h
    · intro ⟨b, hb, hkc⟩
      have := (chainRemove_eq_none_iff kc k c).mp hcr b hb
      rw [this] at hkc
      exact Bool.noConfusion hkc
  | some p =>
    simp only [Option.isSome_some, true_iff]
    obtain ⟨c1, x, c2, hc, hno, hx, hv, hrest⟩ :=
      chainRemove_some_spec kc k c p.1 p.2 (by rw [hcr])
    exact ⟨x, by rw [hc]; exact List.mem_append_right _ (by simp), hx⟩

end ScanLemmas

/-! Characterization of `HASH_Insert_Extended` and `HASH_Remove_Extended`. -/

section OpLemmas

variable {K : Type}

theorem insert_alloc_fail (hf : K → Nat → Nat) (t : HASH_TABLE K) (k : K)
    (v : Nat) (rOk : Bool) :
    HASH_Insert_Extended hf t k v false rOk = (false, _inc_ref t) := rfl

theorem insert_noGrow (hf : K → Nat → Nat) (t : HASH_TABLE K) (k : K)
    (v : Nat) (rOk : Bool)
    (hcase : ¬ t.uSize < (t.uCount + 1) * 2 ∨ rOk = false) :
    HASH_Insert_Extended hf t k v true rOk =
      (true, { t with
        ppBucketTable := _ChainInsert hf ⟨BUCKET_SIG, v, k⟩ t.ppBucketTable t.uSize,
        uCount := t.uCount + 1 }) := by
  rcases hcase with hc | hc
  · simp [HASH_Insert_Extended, _inc_ref, _dec_ref, hc]
  · subst hc
    by_cases hgrow : t.uSize < (t.uCount + 1) * 2
    · simp [HASH_Insert_Extended, _inc_ref, _dec_ref, hgrow, resize_snd_false]
    · simp [HASH_Insert_Extended, _inc_ref, _dec_ref, hgrow]

theorem insert_grow_eq (hf : K → Nat → Nat) (t : HASH_TABLE K) (k : K)
    (v : Nat) (rOk : Bool) (hgrow : t.uSize < (t.uCount + 1) * 2) :
    HASH_Insert_Extended hf t k v true rOk =
      (true, _dec_ref (_Resize hf { t with
          ppBucketTable := _ChainInsert hf ⟨BUCKET_SIG, v, k⟩ t.ppBucketTable t.uSize,
          uCount := t.uCount + 1,
          hRefCount := t.hRefCount + 1 } (t.uSize * 2) rOk).2) := by
  simp [HASH_Insert_Extended, _inc_ref, hgrow]

theorem remove_notFound (hf : K → Nat → Nat) (kc : K → K → Bool)
    (t : HASH_TABLE K) (k : K) (rOk : Bool)
    (hnone : chainRemove kc k
      (t.ppBucketTable.getD (KEY_TO_INDEX hf k t.uSize) []) = none) :
    HASH_Remove_Extended hf kc t k rOk = (0, t) := by
  rw [List.getD_eq_getElem?_getD] at hnone
  simp [HASH_Remove_Extended, _inc_ref, _dec_ref, hnone]

theorem remove_found_eq (hf : K → Nat → Nat) (kc : K → K → Bool)
    (t : HASH_TABLE K) (k : K) (rOk : Bool) (v : Nat) (rest : List (Bucket K))
    (hsome : chainRemove kc k
      (t.ppBucketTable.getD (KEY_TO_INDEX hf k t.uSize) []) = some (v, rest)) :
    HASH_Remove_Extended hf kc t k rOk =
      (v, _dec_ref (
        if (t.uCount - 1) * 4 < t.uSize ∧ t.uMinimumSize < t.uSize
        then (_Resize hf { t with
            ppBucketTable := t.ppBucketTable.set (KEY_TO_INDEX hf k t.uSize) rest,
            uCount := t.uCount - 1,
            hRefCount := t.hRefCount + 1 }
          (max (t.uSize / 2) t.uMinimumSize) rOk).2
        else { t with
            ppBucketTable := t.ppBucketTable.set (KEY_TO_INDEX hf k t.uSize) rest,
            uCount := t.uCount - 1,
            hRefCount := t.hRefCount + 1 })) := by
  rw [List.getD_eq_getElem?_getD] at hsome
  simp [HASH_Remove_Extended, _inc_ref, hsome]

end OpLemmas

/-! Behavioural specifications of insert and remove. -/

section SpecLemmas

variable {K : Type}

@[simp] theorem dec_ref_uSize (t : HASH_TABLE K) : (_dec_ref t).uSize = t.uSize := rfl

@[simp] theorem dec_ref_uCount (t : HASH_TABLE K) : (_dec_ref t).uCount = t.uCount := rfl

@[simp] theorem dec_ref_uMinimumSize (t : HASH_TABLE K) :
    (_dec_ref t).uMinimumSize = t.uMinimumSize := rfl

@[simp] theorem dec_ref_ppBucketTable (t : HASH_TABLE K) :
    (_dec_ref t).ppBucketTable = t.ppBucketTable := rfl

@[simp] theorem tableEntries_dec_ref (t : HASH_TABLE K) :
    tableEntries (_dec_ref t) = tableEntries t := rfl

@[simp] theorem basic_dec_ref (t : HASH_TABLE K) : Basic (_dec_ref t) ↔ Basic t :=
  Iff.rfl

theorem flatten_set_remove_perm (L : List (List (Bucket K))) (i : Nat)
    (c1 c2 : List (Bucket K)) (x : Bucket K)
    (hi : i < L.length) (hc : L.getD i [] = c1 ++ x :: c2) :
    (L.flatten).Perm (x :: (L.set i (c1 ++ c2)).flatten) := by
  rw [flatten_decomp L i hi, hc, flatten_set L i _ hi]
  have h1 : (L.take i).flatten ++ (c1 ++ x :: c2) ++ (L.drop (i + 1)).flatten
      = ((L.take i).flatten ++ c1) ++ x :: (c2 ++ (L.drop (i + 1)).flatten) := by
    simp [List.append_assoc]
  have h2 : (L.take i).flatten ++ (c1 ++ c2) ++ (L.drop (i + 1)).flatten
      = ((L.take i).flatten ++ c1) ++ (c2 ++ (L.drop (i + 1)).flatten) := by
    simp [List.append_assoc]
  rw [h1, h2]
  exact List.perm_middle

theorem insert_true_spec (hf : K → Nat → Nat) (t : HASH_TABLE K) (k : K)
    (v : Nat) (rOk : Bool) (hb : Basic t) :
    (HASH_Insert_Extended hf t k v true rOk).1 = true ∧
    Basic (HASH_Insert_Extended hf t k v true rOk).2 ∧
    (HASH_Insert_Extended hf t k v true rOk).2.uMinimumSize = t.uMinimumSize ∧
    (HASH_Insert_Extended hf t k v true rOk).2.uCount = t.uCount + 1 ∧
    (tableEntries (HASH_Insert_Extended hf t k v true rOk).2).Perm
      (Bucket.mk BUCKET_SIG v k :: tableEntries t) := by
  obtain ⟨hs, hlen, hmin0, hminle⟩ := hb
  have hidx : KEY_TO_INDEX hf k t.uSize < t.ppBucketTable.length := by
    rw [hlen]; exact keyToIndex_lt hf k t.uSize hs
  have hCIlen : (_ChainInsert hf ⟨BUCKET_SIG, v, k⟩ t.ppBucketTable t.uSize).length
      = t.uSize := by rw [chainInsert_length]; exact hlen
  have hCIperm :
      ((_ChainInsert hf ⟨BUCKET_SIG, v, k⟩ t.ppBucketTable t.uSize).flatten).Perm
        (Bucket.mk BUCKET_SIG v k :: t.ppBucketTable.flatten) :=
    chainInsert_flatten_perm hf _ t.ppBucketTable t.uSize hidx
  have hnoGrow : ∀ ro : Bool, (¬ t.uSize < (t.uCount + 1) * 2 ∨ ro = false) →
      (HASH_Insert_Extended hf t k v true ro).1 = true ∧
      Basic (HASH_Insert_Extended hf t k v true ro).2 ∧
      (HASH_Insert_Extended hf t k v true ro).2.uMinimumSize = t.uMinimumSize ∧
      (HASH_Insert_Extended hf t k v true ro).2.uCount = t.uCount + 1 ∧
      (tableEntries (HASH_Insert_Extended hf t k v true ro).2).Perm
        (Bucket.mk BUCKET_SIG v k :: tableEntries t) := by
    intro ro hcase
    rw [insert_noGrow hf t k v ro hcase]
    exact ⟨rfl, ⟨hs, hCIlen, hmin0, hminle⟩, rfl, rfl, hCIperm⟩
  by_cases hgrow : t.uSize < (t.uCount + 1) * 2
  · cases rOk with
    | false => exact hnoGrow false (Or.inr rfl)
    | true =>
      rw [insert_grow_eq hf t k v true hgrow]
      have hne : t.uSize * 2 ≠ t.uSize := by omega
      obtain ⟨r1, r2, r3, r4, r5, r6, r7⟩ := resize_ok_spec hf
        { t with
          ppBucketTable := _ChainInsert hf ⟨BUCKET_SIG, v, k⟩ t.ppBucketTable t.uSize,
          uCount := t.uCount + 1,
          hRefCount := t.hRefCount + 1 } (t.uSize * 2) hne (by omega)
      refine ⟨rfl, ⟨?_, ?_, ?_, ?_⟩, ?_, ?_, ?_⟩
      · simp only [dec_ref_uSize, r1]; omega
      · simp only [dec_ref_uSize, dec_ref_ppBucketTable, r1, r5]
      · simp only [dec_ref_uMinimumSize, r3]; exact hmin0
      · simp only [dec_ref_uSize, dec_ref_uMinimumSize, r1, r3]; omega
      · simp only [dec_ref_uMinimumSize, r3]
      · simp only [dec_ref_uCount, r2]
      · refine (by simpa using r7 : (tableEntries (_dec_ref _)).Perm _).trans ?_
        exact hCIperm
  · exact hnoGrow rOk (Or.inl hgrow)

theorem remove_found_spec (hf : K → Nat → Nat) (kc : K → K → Bool)
    (t : HASH_TABLE K) (k : K) (rOk : Bool) (v : Nat) (rest : List (Bucket K))
    (hb : Basic t)
    (hsome : chainRemove kc k
      (t.ppBucketTable.getD (KEY_TO_INDEX hf k t.uSize) []) = some (v, rest)) :
    ∃ x : Bucket K,
      v = x.v ∧ kc x.k k = true ∧ x ∈ tableEntries t ∧
      (HASH_Remove_Extended hf kc t k rOk).1 = v ∧
      Basic (HASH_Remove_Extended hf kc t k rOk).2 ∧
      (HASH_Remove_Extended hf kc t k rOk).2.uMinimumSize = t.uMinimumSize ∧
      (HASH_Remove_Extended hf kc t k rOk).2.uCount = t.uCount - 1 ∧
      (tableEntries t).Perm (x :: tableEntries (HASH_Remove_Extended hf kc t k rOk).2) := by
  obtain ⟨hs, hlen, hmin0, hminle⟩ := hb
  have hidx : KEY_TO_INDEX hf k t.uSize < t.ppBucketTable.length := by
    rw [hlen]; exact keyToIndex_lt hf k t.uSize hs
  obtain ⟨c1, x, c2, hc, hno, hx, hv, hrest⟩ :=
    chainRemove_some_spec kc k _ v rest hsome
  have hmem : x ∈ tableEntries t := by
    apply mem_getD_flatten t.ppBucketTable (KEY_TO_INDEX hf k t.uSize) x
    rw [hc]
    exact List.mem_append_right _ (by simp)
  have hbase : (tableEntries t).Perm
      (x :: (t.ppBucketTable.set (KEY_TO_INDEX hf k t.uSize) rest).flatten) := by
    rw [hrest]
    exact flatten_set_remove_perm t.ppBucketTable _ c1 c2 x hidx hc
  have hsetlen : (t.ppBucketTable.set (KEY_TO_INDEX hf k t.uSize) rest).length
      = t.uSize := by rw [List.length_set]; exact hlen
  rw [remove_found_eq hf kc t k rOk v rest hsome]
  by_cases hcond : (t.uCount - 1) * 4 < t.uSize ∧ t.uMinimumSize < t.uSize
  · rw [if_pos hcond]
    cases rOk with
    | false =>
      rw [resize_snd_false]
      exact ⟨x, hv, hx, hmem, rfl, ⟨hs, hsetlen, hmin0, hminle⟩, rfl, rfl, hbase⟩
    | true =>
      have hlt : max (t.uSize / 2) t.uMinimumSize < t.uSize :=
        max_lt (Nat.div_lt_self hs (by omega)) hcond.2
      have hne : max (t.uSize / 2) t.uMinimumSize ≠ t.uSize := Nat.ne_of_lt hlt
      have hpos : 0 < max (t.uSize / 2) t.uMinimumSize :=
        Nat.lt_of_lt_of_le hmin0 (le_max_right _ _)
      obtain ⟨r1, r2, r3, r4, r5, r6, r7⟩ := resize_ok_spec hf
        { t with
          ppBucketTable := t.ppBucketTable.set (KEY_TO_INDEX hf k t.uSize) rest,
          uCount := t.uCount - 1,
          hRefCount := t.hRefCount + 1 }
        (max (t.uSize / 2) t.uMinimumSize) hne hpos
      refine ⟨x, hv, hx, hmem, rfl, ⟨?_, ?_, ?_, ?_⟩, ?_, ?_, ?_⟩
      · simp only [dec_ref_uSize, r1]; exact hpos
      · simp only [dec_ref_uSize, dec_ref_ppBucketTable, r1, r5]
      · simp only [dec_ref_uMinimumSize, r3]; exact hmin0
      · simp only [dec_ref_uSize, dec_ref_uMinimumSize, r1, r3]
        exact le_max_right _ _
      · simp only [dec_ref_uMinimumSize, r3]
      · simp only [dec_ref_uCount, r2]
      · refine hbase.trans (List.Perm.cons x ?_)
        exact (by simpa using r7 : (tableEntries (_dec_ref _)).Perm _).symm
  · rw [if_neg hcond]
    exact ⟨x, hv, hx, hmem, rfl, ⟨hs, hsetlen, hmin0, hminle⟩, rfl, rfl, hbase⟩

end SpecLemmas

/-! Claim theorems. -/

section Claims

variable {K : Type}

/-- C8: for every table and every new size, `_Resize` is a no-op returning
success when the new size equals the current size, and when allocation of
the new slot array fails it returns failure and leaves the table completely
unchanged (same size, same slot array, same entries). -/
theorem C8_resize_noop_and_alloc_fail (hf : K → Nat → Nat) (t : HASH_TABLE K)
    (ns : Nat) (ok : Bool) :
    (ns = t.uSize → _Resize hf t ns ok = (true, t)) ∧
    (ns ≠ t.uSize → _Resize hf t ns false = (false, t)) :=
  ⟨fun h => resize_noop hf t ns ok h, fun h => resize_fail hf t ns h⟩

/-- Witness for C8 at a concrete table: a same-size resize is an accepted
no-op and a failed-allocation resize to a different size fails leaving the
table intact. -/
theorem C8_witness :
    _Resize exHf exOne2 2 true = (true, exOne2) ∧
    _Resize exHf exOne2 4 false = (false, exOne2) :=
  ⟨(C8_resize_noop_and_alloc_fail exHf exOne2 2 true).1 (by decide),
   (C8_resize_noop_and_alloc_fail exHf exOne2 4 true).2 (by decide)⟩

/-- C4 (code bug evidence): when the bucket allocation of
`HASH_Insert_Extended` fails, the function indeed returns failure without
mutating the count, the chains or the size - but the reentrancy guard is
NOT released: the guard counter is left at its pre-call value plus one,
because the early return skips `_dec_ref` (hash.c lines 539-543). -/
theorem C4_insert_alloc_fail_leaks_guard (hf : K → Nat → Nat)
    (t : HASH_TABLE K) (k : K) (v : Nat) (rOk : Bool) :
    (HASH_Insert_Extended hf t k v false rOk).1 = false ∧
    (HASH_Insert_Extended hf t k v false rOk).2.uCount = t.uCount ∧
    (HASH_Insert_Extended hf t k v false rOk).2.ppBucketTable = t.ppBucketTable ∧
    (HASH_Insert_Extended hf t k v false rOk).2.uSize = t.uSize ∧
    (HASH_Insert_Extended hf t k v false rOk).2.uMinimumSize = t.uMinimumSize ∧
    (HASH_Insert_Extended hf t k v false rOk).2.hRefCount = t.hRefCount + 1 := by
  rw [insert_alloc_fail]
  exact ⟨rfl, rfl, rfl, rfl, rfl, rfl⟩

/-- C5 (code bug evidence): the leak-cleanup loop of `HASH_Delete` iterates
`i` over `[0, uCount)` and frees `ppBucketTable[i]` - the head bucket of the
i-th slot - instead of walking the chains.  On a table with both live
entries chained in slot 1 and slot 0 empty, iteration 0 dereferences a NULL
slot pointer (`none` below) and the mid-chain bucket `exB 9 3` is never
tombstoned or freed, contradicting the claim that every live bucket is. -/
theorem C5_delete_leak_loop_wrong_buckets :
    exChain2.uCount = 2 ∧
    tableEntries exChain2 = [exB 7 1, exB 9 3] ∧
    HASH_Delete_freed exChain2 = [none, some (exB 7 1)] ∧
    some (exB 9 3) ∉ HASH_Delete_freed exChain2 ∧
    none ∈ HASH_Delete_freed exChain2 := by
  decide

/-- C1 counterexample: the round-trip claim fails as stated when the table
already holds an entry for the key.  Inserting value 9 for key 0 into a
size-2 table already mapping key 0 to 7 triggers a successful grow to size
4; the rehash reverses the chain, so the old bucket ends up ahead of the
new one and retrieve returns 7, not the just-inserted 9. -/
theorem C1_counterexample :
    (HASH_Insert_Extended exHf exOne2 0 9 true true).1 = true ∧
    (9 : Nat) ≠ 0 ∧
    HASH_Retrieve_Extended exHf exKc
      (HASH_Insert_Extended exHf exOne2 0 9 true true).2 0 = 7 ∧
    (7 : Nat) ≠ 9 := by
  decide

/-- C1 (amended): for every well-formed table t and key k of the table's
key size such that no live entry's key compares equal to k, if
insert(t, k, v) succeeds with value v then an immediately following
retrieve(t, k) returns v, for any v other than the reserved sentinel 0
(the restriction to fresh keys is forced by `C1_counterexample`). -/
theorem C1_insert_then_retrieve (hf : K → Nat → Nat) (kc : K → K → Bool)
    (t : HASH_TABLE K) (k : K) (v : Nat) (rOk : Bool)
    (hwf : WF hf t) (hfresh : NoKeyIn kc t k) (hrefl : kc k k = true)
    (hv : v ≠ 0) :
    (HASH_Insert_Extended hf t k v true rOk).1 = true ∧
    HASH_Retrieve_Extended hf kc (HASH_Insert_Extended hf t k v true rOk).2 k = v := by
  have hb : Basic t := hwf.1
  have hs : 0 < t.uSize := hb.1
  have hlen : t.ppBucketTable.length = t.uSize := hb.2.1
  have hidx : KEY_TO_INDEX hf k t.uSize < t.ppBucketTable.length := by
    rw [hlen]; exact keyToIndex_lt hf k t.uSize hs
  refine ⟨(insert_true_spec hf t k v rOk hb).1, ?_⟩
  have hnoGrowRetr : ∀ ro : Bool, (¬ t.uSize < (t.uCount + 1) * 2 ∨ ro = false) →
      HASH_Retrieve_Extended hf kc (HASH_Insert_Extended hf t k v true ro).2 k = v := by
    intro ro hcase
    rw [insert_noGrow hf t k v ro hcase]
    show chainRetrieve kc k
      ((_ChainInsert hf ⟨BUCKET_SIG, v, k⟩ t.ppBucketTable t.uSize).getD
        (KEY_TO_INDEX hf k t.uSize) []) = v
    rw [chainInsert_getD_eq hf ⟨BUCKET_SIG, v, k⟩ t.ppBucketTable t.uSize hidx]
    exact chainRetrieve_cons_match kc k _ _ hrefl
  by_cases hgrow : t.uSize < (t.uCount + 1) * 2
  · cases rOk with
    | false => exact hnoGrowRetr false (Or.inr rfl)
    | true =>
      rw [insert_grow_eq hf t k v true hgrow]
      have hne : t.uSize * 2 ≠ t.uSize := by omega
      obtain ⟨r1, r2, r3, r4, r5, r6, r7⟩ := resize_ok_spec hf
        { t with
          ppBucketTable := _ChainInsert hf ⟨BUCKET_SIG, v, k⟩ t.ppBucketTable t.uSize,
          uCount := t.uCount + 1,
          hRefCount := t.hRefCount + 1 } (t.uSize * 2) hne (by omega)
      simp only [HASH_Retrieve_Extended, dec_ref_ppBucketTable, dec_ref_uSize, r1]
      rw [r6 (KEY_TO_INDEX hf k (t.uSize * 2))]
      have hmemMid : (⟨BUCKET_SIG, v, k⟩ : Bucket K) ∈ tableEntries
          { t with
            ppBucketTable := _ChainInsert hf ⟨BUCKET_SIG, v, k⟩ t.ppBucketTable t.uSize,
            uCount := t.uCount + 1,
            hRefCount := t.hRefCount + 1 } := by
        have hp := chainInsert_flatten_perm hf ⟨BUCKET_SIG, v, k⟩ t.ppBucketTable t.uSize hidx
        exact hp.mem_iff.mpr (by simp)
      apply chainRetrieve_unique
      · refine ⟨⟨BUCKET_SIG, v, k⟩, ?_, hrefl⟩
        rw [List.mem_reverse, List.mem_filter]
        exact ⟨hmemMid, by simp⟩
      · intro b hbmem hbk
        rw [List.mem_reverse, List.mem_filter] at hbmem
        have hbmid := hbmem.1
        have hp := chainInsert_flatten_perm hf ⟨BUCKET_SIG, v, k⟩ t.ppBucketTable t.uSize hidx
        have hsplit : b = ⟨BUCKET_SIG, v, k⟩ ∨ b ∈ tableEntries t :=
          List.mem_cons.mp (hp.mem_iff.mp hbmid)
        rcases hsplit with h1 | h1
        · rw [h1]
        · have := hfresh b h1
          rw [this] at hbk
          exact Bool.noConfusion hbk
  · exact hnoGrowRetr rOk (Or.inl hgrow)

/-- Witness for C1 at a concrete instance: inserting the fresh key 5 with
value 7 into an empty size-1 table (which triggers a successful grow to
size 2) makes retrieve return 7. -/
theorem C1_witness :
    (HASH_Insert_Extended exHf exEmpty1 5 7 true true).1 = true ∧
    HASH_Retrieve_Extended exHf exKc
      (HASH_Insert_Extended exHf exEmpty1 5 7 true true).2 5 = 7 :=
  C1_insert_then_retrieve exHf exKc exEmpty1 5 7 true
    (by unfold WF Basic tableEntries; decide)
    (by unfold NoKeyIn tableEntries; decide) (by decide) (by decide)

end Claims

section ClaimsB

variable {K : Type}

/-- C10 counterexample: the "retrieve then returns v2, the most recently
inserted value" part fails as stated when the duplicate insert triggers a
successful grow-resize: inserting 9 for key 0 into the size-2 table already
mapping key 0 to 7 doubles the table to size 4 and the rehash reverses the
chain, so retrieve returns the old value 7. -/
theorem C10_counterexample :
    (∃ b ∈ tableEntries exOne2, exKc b.k 0 = true ∧ b.v = 7) ∧
    (HASH_Insert_Extended exHf exOne2 0 9 true true).1 = true ∧
    (HASH_Insert_Extended exHf exOne2 0 9 true true).2.uCount = exOne2.uCount + 1 ∧
    HASH_Retrieve_Extended exHf exKc
      (HASH_Insert_Extended exHf exOne2 0 9 true true).2 0 = 7 ∧
    (7 : Nat) ≠ 9 := by
  decide

/-- C10 (amended): insert never checks whether the key is already present -
for every table already containing key k with value v1, insert(k, v2)
succeeds and adds a second live entry whose key compares equal to k (the
count and the number of matching entries both increase by one), and
retrieve(k) then returns v2, the most recently inserted value, provided the
insert did not trigger a successful resize (the proviso is forced by
`C10_counterexample`: a successful grow reverses the chain). -/
theorem C10_duplicate_insert (hf : K → Nat → Nat) (kc : K → K → Bool)
    (t : HASH_TABLE K) (k : K) (v1 v2 : Nat) (rOk : Bool)
    (hb : Basic t) (hrefl : kc k k = true)
    (hprev : ∃ b ∈ tableEntries t, kc b.k k = true ∧ b.v = v1) :
    (HASH_Insert_Extended hf t k v2 true rOk).1 = true ∧
    (HASH_Insert_Extended hf t k v2 true rOk).2.uCount = t.uCount + 1 ∧
    (tableEntries (HASH_Insert_Extended hf t k v2 true rOk).2).countP
        (fun b => kc b.k k) =
      (tableEntries t).countP (fun b => kc b.k k) + 1 ∧
    ((t.uCount + 1) * 2 ≤ t.uSize ∨ rOk = false →
      HASH_Retrieve_Extended hf kc
        (HASH_Insert_Extended hf t k v2 true rOk).2 k = v2) := by
  obtain ⟨h1, _, _, h4, h5⟩ := insert_true_spec hf t k v2 rOk hb
  refine ⟨h1, h4, ?_, ?_⟩
  · rw [h5.countP_eq]
    simp [List.countP_cons, hrefl]
  · intro hcase
    have hidx : KEY_TO_INDEX hf k t.uSize < t.ppBucketTable.length := by
      rw [hb.2.1]; exact keyToIndex_lt hf k t.uSize hb.1
    have hcase2 : ¬ t.uSize < (t.uCount + 1) * 2 ∨ rOk = false := by
      rcases hcase with hc | hc
      · exact Or.inl (Nat.not_lt.mpr hc)
      · exact Or.inr hc
    rw [insert_noGrow hf t k v2 rOk hcase2]
    show chainRetrieve kc k
      ((_ChainInsert hf ⟨BUCKET_SIG, v2, k⟩ t.ppBucketTable t.uSize).getD
        (KEY_TO_INDEX hf k t.uSize) []) = v2
    rw [chainInsert_getD_eq hf ⟨BUCKET_SIG, v2, k⟩ t.ppBucketTable t.uSize hidx]
    exact chainRetrieve_cons_match kc k _ _ hrefl

/-- Witness for C10: inserting value 5 for the already-present key 0 into
the size-8 two-entry table (no resize triggers: 3*2 = 6 <= 8) succeeds,
bumps the count and the number of entries for key 0, and retrieve returns
the new value 5. -/
theorem C10_witness :
    (HASH_Insert_Extended exHf exTwo8 0 5 true true).1 = true ∧
    (HASH_Insert_Extended exHf exTwo8 0 5 true true).2.uCount = exTwo8.uCount + 1 ∧
    (tableEntries (HASH_Insert_Extended exHf exTwo8 0 5 true true).2).countP
        (fun b => exKc b.k 0) =
      (tableEntries exTwo8).countP (fun b => exKc b.k 0) + 1 ∧
    ((exTwo8.uCount + 1) * 2 ≤ exTwo8.uSize ∨ true = false →
      HASH_Retrieve_Extended exHf exKc
        (HASH_Insert_Extended exHf exTwo8 0 5 true true).2 0 = 5) :=
  C10_duplicate_insert exHf exKc exTwo8 0 7 5 true
    (by unfold Basic; decide) (by decide)
    (by unfold tableEntries; decide)

/-- C7 counterexample: with key 0 stored twice (duplicate inserts), a
remove of key 0 deletes only the first matching bucket, so the following
retrieve returns the remaining value 7 instead of the sentinel 0. -/
theorem C7_counterexample :
    (HASH_Remove_Extended exHf exKc exDup2 0 true).2.uCount
        = exDup2.uCount - 1 ∧
    HASH_Retrieve_Extended exHf exKc
      (HASH_Remove_Extended exHf exKc exDup2 0 true).2 0 = 7 ∧
    (7 : Nat) ≠ 0 := by
  decide

/-- C7 (amended): for every well-formed table and key k, after remove(k)
succeeds in finding k the count has decreased by exactly one, and - provided
at most one live entry's key compares equal to k (forced by
`C7_counterexample`, since remove unlinks only the first match) -
retrieve(k) returns the sentinel 0; remove of a key absent from the table
returns the sentinel 0 and leaves the table (hence its count) unchanged. -/
theorem C7_remove_then_retrieve (hf : K → Nat → Nat) (kc : K → K → Bool)
    (t : HASH_TABLE K) (k : K) (rOk : Bool) (hwf : WF hf t) :
    ((chainRemove kc k
        (t.ppBucketTable.getD (KEY_TO_INDEX hf k t.uSize) [])).isSome = true →
      (tableEntries t).countP (fun b => kc b.k k) ≤ 1 →
      (HASH_Remove_Extended hf kc t k rOk).2.uCount + 1 = t.uCount ∧
      HASH_Retrieve_Extended hf kc (HASH_Remove_Extended hf kc t k rOk).2 k = 0) ∧
    (NoKeyIn kc t k → HASH_Remove_Extended hf kc t k rOk = (0, t)) := by
  constructor
  · intro hfound huniq
    cases hcr : chainRemove kc k
        (t.ppBucketTable.getD (KEY_TO_INDEX hf k t.uSize) []) with
    | none => rw [hcr] at hfound; exact Bool.noConfusion hfound
    | some p =>
      obtain ⟨x, hv, hx, hmem, hr1, hbr, hmin, hcnt, hperm⟩ :=
        remove_found_spec hf kc t k rOk p.1 p.2 hwf.1 (by rw [hcr])
      have hlen : (tableEntries t).length =
          (tableEntries (HASH_Remove_Extended hf kc t k rOk).2).length + 1 := by
        rw [hperm.length_eq]; rfl
      have hcount0 : t.uCount = (tableEntries t).length := hwf.2.1
      constructor
      · rw [hcnt]; omega
      · have hczero : (tableEntries (HASH_Remove_Extended hf kc t k rOk).2).countP
            (fun b => kc b.k k) = 0 := by
          have := hperm.countP_eq (fun b => kc b.k k)
          rw [List.countP_cons] at this
          simp only [hx, if_true] at this
          omega
        have hnom : ∀ b ∈ tableEntries (HASH_Remove_Extended hf kc t k rOk).2,
            kc b.k k = false := by
          intro b hbm
          have := List.countP_eq_zero.mp hczero b hbm
          cases hkc : kc b.k k
          · rfl
          · exact absurd hkc this
        simp only [HASH_Retrieve_Extended]
        apply chainRetrieve_no_match
        intro b hbm
        exact hnom b (mem_getD_flatten _ _ b hbm)
  · intro habsent
    apply remove_notFound
    rw [chainRemove_eq_none_iff]
    intro b hbm
    exact habsent b (mem_getD_flatten _ _ b hbm)

/-- Witness for C7: removing the present key 0 from the size-8 two-entry
table (which triggers a successful shrink to size 4) makes retrieve return
the sentinel and decrements the count; removing the absent key 5 returns
the sentinel and leaves the table unchanged. -/
theorem C7_witness :
    ((HASH_Remove_Extended exHf exKc exTwo8 0 true).2.uCount + 1
        = exTwo8.uCount ∧
      HASH_Retrieve_Extended exHf exKc
        (HASH_Remove_Extended exHf exKc exTwo8 0 true).2 0 = 0) ∧
    HASH_Remove_Extended exHf exKc exTwo8 5 true = (0, exTwo8) :=
  ⟨(C7_remove_then_retrieve exHf exKc exTwo8 0 true
      (by unfold WF Basic tableEntries KEY_TO_INDEX; decide)).1
      (by decide) (by unfold tableEntries; decide),
   (C7_remove_then_retrieve exHf exKc exTwo8 5 true
      (by unfold WF Basic tableEntries KEY_TO_INDEX; decide)).2
      (by unfold NoKeyIn tableEntries; decide)⟩

end ClaimsB

/-! The operation-sequence invariant behind C6 and the floor invariant. -/

section RunLemmas

variable {K : Type}

theorem runOps_nil (hf : K → Nat → Nat) (kc : K → K → Bool) (t : HASH_TABLE K) :
    runOps hf kc [] t = (t, 0, 0) := rfl

theorem runOps_ins_fst (hf : K → Nat → Nat) (kc : K → K → Bool) (k : K)
    (v : Nat) (bOk rOk : Bool) (rest : List (HOp K)) (t : HASH_TABLE K) :
    (runOps hf kc (HOp.ins k v bOk rOk :: rest) t).1
      = (runOps hf kc rest (HASH_Insert_Extended hf t k v bOk rOk).2).1 := rfl

theorem runOps_ins_nI (hf : K → Nat → Nat) (kc : K → K → Bool) (k : K)
    (v : Nat) (bOk rOk : Bool) (rest : List (HOp K)) (t : HASH_TABLE K) :
    (runOps hf kc (HOp.ins k v bOk rOk :: rest) t).2.1
      = (if (HASH_Insert_Extended hf t k v bOk rOk).1 then 1 else 0) +
        (runOps hf kc rest (HASH_Insert_Extended hf t k v bOk rOk).2).2.1 := rfl

theorem runOps_ins_nR (hf : K → Nat → Nat) (kc : K → K → Bool) (k : K)
    (v : Nat) (bOk rOk : Bool) (rest : List (HOp K)) (t : HASH_TABLE K) :
    (runOps hf kc (HOp.ins k v bOk rOk :: rest) t).2.2
      = (runOps hf kc rest (HASH_Insert_Extended hf t k v bOk rOk).2).2.2 := rfl

theorem runOps_rem_fst (hf : K → Nat → Nat) (kc : K → K → Bool) (k : K)
    (rOk : Bool) (rest : List (HOp K)) (t : HASH_TABLE K) :
    (runOps hf kc (HOp.rem k rOk :: rest) t).1
      = (runOps hf kc rest (HASH_Remove_Extended hf kc t k rOk).2).1 := rfl

theorem runOps_rem_nI (hf : K → Nat → Nat) (kc : K → K → Bool) (k : K)
    (rOk : Bool) (rest : List (HOp K)) (t : HASH_TABLE K) :
    (runOps hf kc (HOp.rem k rOk :: rest) t).2.1
      = (runOps hf kc rest (HASH_Remove_Extended hf kc t k rOk).2).2.1 := rfl

theorem runOps_rem_nR (hf : K → Nat → Nat) (kc : K → K → Bool) (k : K)
    (rOk : Bool) (rest : List (HOp K)) (t : HASH_TABLE K) :
    (runOps hf kc (HOp.rem k rOk :: rest) t).2.2
      = (if (chainRemove kc k
          (t.ppBucketTable.getD (KEY_TO_INDEX hf k t.uSize) [])).isSome
        then 1 else 0) +
        (runOps hf kc rest (HASH_Remove_Extended hf kc t k rOk).2).2.2 := rfl

theorem runOps_invariant (hf : K → Nat → Nat) (kc : K → K → Bool)
    (ops : List (HOp K)) (t : HASH_TABLE K)
    (hb : Basic t) (hc : t.uCount = (tableEntries t).length) :
    Basic (runOps hf kc ops t).1 ∧
    (runOps hf kc ops t).1.uMinimumSize = t.uMinimumSize ∧
    (runOps hf kc ops t).1.uCount = (tableEntries (runOps hf kc ops t).1).length ∧
    (runOps hf kc ops t).1.uCount + (runOps hf kc ops t).2.2
      = t.uCount + (runOps hf kc ops t).2.1 := by
  induction ops generalizing t with
  | nil => exact ⟨hb, rfl, hc, rfl⟩
  | cons op rest ih =>
    cases op with
    | ins k v bOk rOk =>
      rw [runOps_ins_fst, runOps_ins_nI, runOps_ins_nR]
      cases bOk with
      | false =>
        rw [insert_alloc_fail]
        have hb2 : Basic (_inc_ref t) := hb
        have hc2 : (_inc_ref t).uCount = (tableEntries (_inc_ref t)).length := hc
        obtain ⟨a1, a2, a3, a4⟩ := ih (_inc_ref t) hb2 hc2
        refine ⟨a1, a2, a3, ?_⟩
        simp only [Bool.false_eq_true, if_false, Nat.zero_add]
        exact a4
      | true =>
        obtain ⟨h1, hb2, hmin, hcnt, hperm⟩ := insert_true_spec hf t k v rOk hb
        have hc2 : (HASH_Insert_Extended hf t k v true rOk).2.uCount
            = (tableEntries (HASH_Insert_Extended hf t k v true rOk).2).length := by
          rw [hcnt, hperm.length_eq, List.length_cons, hc]
        obtain ⟨a1, a2, a3, a4⟩ := ih _ hb2 hc2
        refine ⟨a1, by rw [a2, hmin], a3, ?_⟩
        rw [h1, if_pos rfl, hcnt] at *
        omega
    | rem k rOk =>
      rw [runOps_rem_fst, runOps_rem_nI, runOps_rem_nR]
      cases hcr : chainRemove kc k
          (t.ppBucketTable.getD (KEY_TO_INDEX hf k t.uSize) []) with
      | none =>
        rw [remove_notFound hf kc t k rOk hcr]
        obtain ⟨a1, a2, a3, a4⟩ := ih t hb hc
        refine ⟨a1, a2, a3, ?_⟩
        simp only [Option.isSome_none, Bool.false_eq_true, if_false, Nat.zero_add]
        exact a4
      | some p =>
        obtain ⟨x, hv, hx, hmem, hr1, hbr, hmin, hcnt, hperm⟩ :=
          remove_found_spec hf kc t k rOk p.1 p.2 hb (by rw [hcr])
        have hlen : (tableEntries t).length =
            (tableEntries (HASH_Remove_Extended hf kc t k rOk).2).length + 1 := by
          rw [hperm.length_eq]; rfl
        have hc2 : (HASH_Remove_Extended hf kc t k rOk).2.uCount
            = (tableEntries (HASH_Remove_Extended hf kc t k rOk).2).length := by
          rw [hcnt]; omega
        obtain ⟨a1, a2, a3, a4⟩ := ih _ hbr hc2
        refine ⟨a1, by rw [a2, hmin], a3, ?_⟩
        simp only [Option.isSome_some, eq_self_iff_true, if_true]
        rw [hcnt] at a4
        have h1c : t.uCount =
            (tableEntries (HASH_Remove_Extended hf kc t k rOk).2).length + 1 := by
          rw [hc, hlen]
        rw [h1c] at a4 ⊢
        rw [Nat.add_sub_cancel] at a4
        omega

end RunLemmas

section ClaimsC

variable {K : Type}

/-- C6 counterexample: the claim fails as stated because insert admits
duplicate keys - after two inserts of key 5 the count is 2 while only one
distinct key has been inserted and none removed. -/
theorem C6_counterexample :
    (runOps exHf exKc [HOp.ins 5 7 true true, HOp.ins 5 9 true true]
        exEmpty1).1.uCount = 2 ∧
    (specDistinctKeys exKc [HOp.ins 5 7 true true, HOp.ins 5 9 true true]
        []).length = 1 ∧
    (2 : Nat) ≠ 1 := by
  decide

/-- C6 (amended): after every sequence of create/insert/remove operations,
the table's count field equals the number of live entries in the table -
equivalently, the number of successful inserts minus the number of removes
that found their key (the change from "distinct keys" to "entries" is
forced by `C6_counterexample`: duplicate inserts each count). -/
theorem C6_count_live_entries (hf : K → Nat → Nat) (kc : K → K → Bool)
    (ops : List (HOp K)) (n ksz : Nat) (t0 : HASH_TABLE K)
    (hcr : HASH_Create_Extended n ksz true true = some t0) :
    (runOps hf kc ops t0).1.uCount
      = (tableEntries (runOps hf kc ops t0).1).length ∧
    (runOps hf kc ops t0).1.uCount + (runOps hf kc ops t0).2.2
      = (runOps hf kc ops t0).2.1 := by
  by_cases h : n = 0 ∨ ksz = 0
  · rw [HASH_Create_Extended, if_pos h] at hcr
    exact Option.noConfusion hcr
  · rw [HASH_Create_Extended, if_neg h] at hcr
    simp only [if_pos rfl] at hcr
    injection hcr with h2
    have hn : 0 < n := by
      rcases Nat.eq_zero_or_pos n with h0 | h0
      · exact absurd (Or.inl h0) h
      · exact h0
    have hb : Basic t0 := by
      rw [← h2]
      exact ⟨hn, List.length_replicate n [], hn, Nat.le_refl n⟩
    have hc : t0.uCount = (tableEntries t0).length := by
      rw [← h2]
      show 0 = (List.replicate n ([] : List (Bucket K))).flatten.length
      rw [flatten_replicate_nil]
      rfl
    obtain ⟨a1, a2, a3, a4⟩ := runOps_invariant hf kc ops t0 hb hc
    refine ⟨a3, ?_⟩
    have hcount0 : t0.uCount = 0 := by rw [← h2]
    rw [hcount0] at a4
    omega

/-- Witness for C6 at a concrete run: create a size-2 table, insert key 3
twice, remove key 3 once and remove the absent key 5 - the count equals
the number of live entries and equals successful inserts minus found
removes. -/
theorem C6_witness :
    (runOps exHf exKc exOps
        ⟨2, 0, 2, [[], []], 0⟩).1.uCount
      = (tableEntries (runOps exHf exKc exOps ⟨2, 0, 2, [[], []], 0⟩).1).length ∧
    (runOps exHf exKc exOps ⟨2, 0, 2, [[], []], 0⟩).1.uCount
        + (runOps exHf exKc exOps ⟨2, 0, 2, [[], []], 0⟩).2.2
      = (runOps exHf exKc exOps ⟨2, 0, 2, [[], []], 0⟩).2.1 :=
  C6_count_live_entries exHf exKc exOps 2 8 ⟨2, 0, 2, [[], []], 0⟩ (by decide)

end ClaimsC

section ClaimsD

variable {K : Type}

theorem mem_flatten_set (L : List (List (Bucket K))) (i : Nat)
    (c : List (Bucket K)) (y : Bucket K) (h : y ∈ (L.set i c).flatten) :
    y ∈ c ∨ y ∈ L.flatten := by
  obtain ⟨l, hl, hyl⟩ := List.mem_flatten.mp h
  rcases List.mem_or_eq_of_mem_set hl with h1 | h1
  · exact Or.inr (List.mem_flatten.mpr ⟨l, h1, hyl⟩)
  · exact Or.inl (h1 ▸ hyl)

/-- C3: for every well-formed table of size S with minimum size
minimumSize, a remove that finds and deletes its key and leaves
S > count*4 and S > minimumSize triggers a shrink of the table to
max(S/2, minimumSize) during that same remove (shown here with the
shrink allocation succeeding), and after the successful shrink every
remaining entry's key is still retrievable (retrieve returns a nonzero
stored value, given that no stored value is the sentinel 0); consequently
the size never falls below minimumSize - the minimum is preserved and
bounds the size after every operation sequence. -/
theorem C3_remove_shrink_and_floor (hf : K → Nat → Nat) (kc : K → K → Bool)
    (t : HASH_TABLE K) (k : K)
    (hwf : WF hf t) (hrefl : ∀ a : K, kc a a = true)
    (hfound : (chainRemove kc k
      (t.ppBucketTable.getD (KEY_TO_INDEX hf k t.uSize) [])).isSome = true)
    (htrig : (t.uCount - 1) * 4 < t.uSize ∧ t.uMinimumSize < t.uSize)
    (hvals : ∀ b ∈ tableEntries t, b.v ≠ 0) :
    (HASH_Remove_Extended hf kc t k true).2.uSize
        = max (t.uSize / 2) t.uMinimumSize ∧
    (∀ b ∈ tableEntries (HASH_Remove_Extended hf kc t k true).2,
      HASH_Retrieve_Extended hf kc (HASH_Remove_Extended hf kc t k true).2 b.k ≠ 0) ∧
    (HASH_Remove_Extended hf kc t k true).2.uMinimumSize
        ≤ (HASH_Remove_Extended hf kc t k true).2.uSize ∧
    (∀ (ops : List (HOp K)) (t2 : HASH_TABLE K), Basic t2 →
      t2.uCount = (tableEntries t2).length →
      (runOps hf kc ops t2).1.uMinimumSize = t2.uMinimumSize ∧
      (runOps hf kc ops t2).1.uMinimumSize ≤ (runOps hf kc ops t2).1.uSize) := by
  have hb : Basic t := hwf.1
  have hs : 0 < t.uSize := hb.1
  have hmin0 : 0 < t.uMinimumSize := hb.2.2.1
  cases hcr : chainRemove kc k
      (t.ppBucketTable.getD (KEY_TO_INDEX hf k t.uSize) []) with
  | none => rw [hcr] at hfound; exact Bool.noConfusion hfound
  | some p =>
    obtain ⟨c1, x, c2, hc, hno, hx, hv, hrest⟩ :=
      chainRemove_some_spec kc k _ p.1 p.2 (by rw [hcr])
    rw [remove_found_eq hf kc t k true p.1 p.2 (by rw [hcr]), if_pos htrig]
    have hlt : max (t.uSize / 2) t.uMinimumSize < t.uSize :=
      max_lt (Nat.div_lt_self hs (by omega)) htrig.2
    have hne : max (t.uSize / 2) t.uMinimumSize ≠ t.uSize := Nat.ne_of_lt hlt
    have hpos : 0 < max (t.uSize / 2) t.uMinimumSize :=
      Nat.lt_of_lt_of_le hmin0 (le_max_right _ _)
    obtain ⟨r1, r2, r3, r4, r5, r6, r7⟩ := resize_ok_spec hf
      { t with
        ppBucketTable := t.ppBucketTable.set (KEY_TO_INDEX hf k t.uSize) p.2,
        uCount := t.uCount - 1,
        hRefCount := t.hRefCount + 1 }
      (max (t.uSize / 2) t.uMinimumSize) hne hpos
    have hmidmem : ∀ y : Bucket K,
        y ∈ (t.ppBucketTable.set (KEY_TO_INDEX hf k t.uSize) p.2).flatten →
        y ∈ tableEntries t := by
      intro y hy
      rcases mem_flatten_set t.ppBucketTable _ p.2 y hy with h1 | h1
      · rw [hrest] at h1
        apply mem_getD_flatten t.ppBucketTable (KEY_TO_INDEX hf k t.uSize) y
        rw [hc]
        rcases List.mem_append.mp h1 with h2 | h2
        · exact List.mem_append.mpr (Or.inl h2)
        · exact List.mem_append.mpr (Or.inr (by simp [h2]))
      · exact h1
    refine ⟨by rw [dec_ref_uSize, r1], ?_, ?_, ?_⟩
    · intro b hbmem
      simp only [tableEntries_dec_ref] at hbmem
      have hbmid : b ∈ (t.ppBucketTable.set (KEY_TO_INDEX hf k t.uSize) p.2).flatten :=
        r7.mem_iff.mp hbmem
      simp only [HASH_Retrieve_Extended, dec_ref_ppBucketTable, dec_ref_uSize, r1]
      rw [r6 (KEY_TO_INDEX hf b.k (max (t.uSize / 2) t.uMinimumSize))]
      simp only [tableEntries]
      obtain ⟨b2, hb2mem, hb2k, hb2v⟩ := chainRetrieve_mem kc b.k
        (((t.ppBucketTable.set (KEY_TO_INDEX hf k t.uSize) p.2).flatten).filter
          (fun y => KEY_TO_INDEX hf y.k (max (t.uSize / 2) t.uMinimumSize) ==
            KEY_TO_INDEX hf b.k (max (t.uSize / 2) t.uMinimumSize))).reverse
        ⟨b, by rw [List.mem_reverse, List.mem_filter]; exact ⟨hbmid, by simp⟩,
          hrefl b.k⟩
      rw [hb2v]
      rw [List.mem_reverse, List.mem_filter] at hb2mem
      exact hvals b2 (hmidmem b2 hb2mem.1)
    · rw [dec_ref_uMinimumSize, dec_ref_uSize, r1, r3]
      exact le_max_right _ _
    · intro ops t2 hb2 hc2
      obtain ⟨a1, a2, a3, a4⟩ := runOps_invariant hf kc ops t2 hb2 hc2
      exact ⟨a2, a1.2.2.2⟩

/-- Witness for C3: removing the present key 0 from the size-8 two-entry
table (count drops to 1, 8 > 4 and 8 > 2) shrinks the table to
max(4, 2) = 4 and the remaining entry (key 1, value 9) stays retrievable;
the minimum still bounds the size and is preserved along any run. -/
theorem C3_witness :
    (HASH_Remove_Extended exHf exKc exTwo8 0 true).2.uSize
        = max (exTwo8.uSize / 2) exTwo8.uMinimumSize ∧
    (∀ b ∈ tableEntries (HASH_Remove_Extended exHf exKc exTwo8 0 true).2,
      HASH_Retrieve_Extended exHf exKc
        (HASH_Remove_Extended exHf exKc exTwo8 0 true).2 b.k ≠ 0) ∧
    (HASH_Remove_Extended exHf exKc exTwo8 0 true).2.uMinimumSize
        ≤ (HASH_Remove_Extended exHf exKc exTwo8 0 true).2.uSize ∧
    (∀ (ops : List (HOp Nat)) (t2 : HASH_TABLE Nat), Basic t2 →
      t2.uCount = (tableEntries t2).length →
      (runOps exHf exKc ops t2).1.uMinimumSize = t2.uMinimumSize ∧
      (runOps exHf exKc ops t2).1.uMinimumSize ≤ (runOps exHf exKc ops t2).1.uSize) :=
  C3_remove_shrink_and_floor exHf exKc exTwo8 0
    (by unfold WF Basic tableEntries KEY_TO_INDEX; decide)
    (by intro a; simp [exKc])
    (by decide) (by decide)
    (by unfold tableEntries; decide)

end ClaimsD

/-! Support for C2: unique matchers under pairwise-distinct keys. -/

section DistinctLemmas

variable {K : Type}

theorem mem_flatten_getD (L : List (List (Bucket K))) (y : Bucket K)
    (h : y ∈ L.flatten) : ∃ i, i < L.length ∧ y ∈ L.getD i [] := by
  induction L with
  | nil => simp at h
  | cons a as ih =>
    rw [List.flatten_cons, List.mem_append] at h
    rcases h with h | h
    · exact ⟨0, by simp, h⟩
    · obtain ⟨i, hi, hyi⟩ := ih h
      exact ⟨i + 1, by simpa using hi, hyi⟩

theorem countP_le_one_unique {p : Bucket K → Bool} {l : List (Bucket K)}
    (h1 : l.countP p ≤ 1) {a b : Bucket K} (ha : a ∈ l) (hb : b ∈ l)
    (hpa : p a = true) (hpb : p b = true) : a = b := by
  by_contra hne
  obtain ⟨s1, s2, hsplit⟩ := List.append_of_mem ha
  subst hsplit
  have hbmem : b ∈ s1 ∨ b ∈ s2 := by
    rcases List.mem_append.mp hb with h | h
    · exact Or.inl h
    · rcases List.mem_cons.mp h with h | h
      · exact absurd h.symm hne
      · exact Or.inr h
  have hca : (s1 ++ a :: s2).countP p = s1.countP p + (s2.countP p + 1) := by
    rw [List.countP_append, List.countP_cons, hpa]
    simp
  have hpos : 0 < s1.countP p + s2.countP p := by
    rcases hbmem with h | h
    · have := List.countP_pos_iff.mpr ⟨b, h, hpb⟩
      omega
    · have := List.countP_pos_iff.mpr ⟨b, h, hpb⟩
      omega
  omega

theorem distinct_countP_le_one (kc : K → K → Bool) (l : List (Bucket K)) (key : K)
    (hdk : l.Pairwise (fun a b => kc a.k b.k = false))
    (hsymm : ∀ a b : K, kc a b = kc b a)
    (htrans : ∀ a b c : K, kc a b = true → kc b c = true → kc a c = true) :
    l.countP (fun b => kc b.k key) ≤ 1 := by
  induction l with
  | nil => simp
  | cons a rest ih =>
    have hpw := List.pairwise_cons.mp hdk
    rw [List.countP_cons]
    by_cases ha : kc a.k key = true
    · have hzero : rest.countP (fun b => kc b.k key) = 0 := by
        rw [List.countP_eq_zero]
        intro y hy hyk
        have h1 : kc key y.k = true := by rw [hsymm key y.k]; exact hyk
        have h2 : kc a.k y.k = true := htrans _ _ _ ha h1
        have h3 := hpw.1 y hy
        rw [h3] at h2
        exact Bool.noConfusion h2
      rw [hzero]
      simp [ha]
    · have hfa : kc a.k key = false := by
        cases h : kc a.k key
        · rfl
        · exact absurd h ha
      simp only [hfa, Bool.false_eq_true, if_false, Nat.add_zero]
      exact ih hpw.2

theorem retrieve_distinct (hf : K → Nat → Nat) (kc : K → K → Bool)
    (t : HASH_TABLE K) (hwf : WF hf t) (hdk : DistinctKeys kc t)
    (hsymm : ∀ a b : K, kc a b = kc b a)
    (htrans : ∀ a b c : K, kc a b = true → kc b c = true → kc a c = true)
    (hrefl : ∀ a : K, kc a a = true)
    (b : Bucket K) (hb : b ∈ tableEntries t) :
    HASH_Retrieve_Extended hf kc t b.k = b.v := by
  obtain ⟨i, hi, hbi⟩ := mem_flatten_getD t.ppBucketTable b hb
  have hplace := hwf.2.2 i hi b hbi
  simp only [HASH_Retrieve_Extended]
  rw [hplace]
  apply chainRetrieve_unique
  · exact ⟨b, hbi, hrefl b.k⟩
  · intro y hy hyk
    have hyent : y ∈ tableEntries t := mem_getD_flatten _ _ y hy
    have hle := distinct_countP_le_one kc (tableEntries t) b.k hdk hsymm htrans
    have heq := countP_le_one_unique hle hyent hb hyk (hrefl b.k)
    rw [heq]

end DistinctLemmas

section ClaimsE

variable {K : Type}

/-- C2 counterexample: with duplicate keys present, a grow-triggering
insert reorders each chain (the rehash prepends while walking head first),
so a previously inserted key changes its retrieved value: key 0 retrieves 9
before the insert of key 1 (which grows the table to 4) and 7 afterwards. -/
theorem C2_counterexample :
    (exDup2.uCount + 1) * 2 > exDup2.uSize ∧
    (HASH_Insert_Extended exHf exDup2 1 5 true true).1 = true ∧
    (HASH_Insert_Extended exHf exDup2 1 5 true true).2.uSize = exDup2.uSize * 2 ∧
    HASH_Retrieve_Extended exHf exKc exDup2 0 = 9 ∧
    HASH_Retrieve_Extended exHf exKc
      (HASH_Insert_Extended exHf exDup2 1 5 true true).2 0 = 7 ∧
    (7 : Nat) ≠ 9 := by
  decide

/-- C2 (amended): for every well-formed table of size S whose live entries
carry pairwise distinct keys (the restriction is forced by
`C2_counterexample`), an insert that makes count*2 > S doubles the table
size to 2S during that same insert (shown with the resize allocation
succeeding), and after the successful grow-resize every previously inserted
key is still retrievable with its value unchanged: retrieve returns the
entry's stored value both before and after the insert (the compare strategy
is assumed reflexive, symmetric, transitive and hash-compatible, as any
sane strategy pair is). -/
theorem C2_grow_trigger_preserves_entries (hf : K → Nat → Nat)
    (kc : K → K → Bool) (t : HASH_TABLE K) (j : K) (v : Nat)
    (hwf : WF hf t) (hdk : DistinctKeys kc t)
    (hsymm : ∀ a b : K, kc a b = kc b a)
    (htrans : ∀ a b c : K, kc a b = true → kc b c = true → kc a c = true)
    (hrefl : ∀ a : K, kc a a = true)
    (hhash : ∀ (a b : K) (s : Nat), kc a b = true → hf a s = hf b s)
    (htrig : t.uSize < (t.uCount + 1) * 2) :
    (HASH_Insert_Extended hf t j v true true).1 = true ∧
    (HASH_Insert_Extended hf t j v true true).2.uSize = t.uSize * 2 ∧
    (∀ b ∈ tableEntries t,
      HASH_Retrieve_Extended hf kc t b.k = b.v ∧
      HASH_Retrieve_Extended hf kc
        (HASH_Insert_Extended hf t j v true true).2 b.k = b.v) := by
  have hb0 : Basic t := hwf.1
  have hs : 0 < t.uSize := hb0.1
  have hlen : t.ppBucketTable.length = t.uSize := hb0.2.1
  have hi : KEY_TO_INDEX hf j t.uSize < t.ppBucketTable.length := by
    rw [hlen]; exact keyToIndex_lt hf j t.uSize hs
  have hne : t.uSize * 2 ≠ t.uSize := by omega
  rw [insert_grow_eq hf t j v true htrig]
  obtain ⟨r1, r2, r3, r4, r5, r6, r7⟩ := resize_ok_spec hf
    { t with
      ppBucketTable := _ChainInsert hf ⟨BUCKET_SIG, v, j⟩ t.ppBucketTable t.uSize,
      uCount := t.uCount + 1,
      hRefCount := t.hRefCount + 1 } (t.uSize * 2) hne (by omega)
  have hCIperm :
      ((_ChainInsert hf ⟨BUCKET_SIG, v, j⟩ t.ppBucketTable t.uSize).flatten).Perm
        (Bucket.mk BUCKET_SIG v j :: tableEntries t) :=
    chainInsert_flatten_perm hf _ t.ppBucketTable t.uSize hi
  refine ⟨rfl, by rw [dec_ref_uSize, r1], ?_⟩
  intro b hbent
  refine ⟨retrieve_distinct hf kc t hwf hdk hsymm htrans hrefl b hbent, ?_⟩
  have hcount1 : (tableEntries t).countP (fun y => kc y.k b.k) = 1 := by
    have hle := distinct_countP_le_one kc (tableEntries t) b.k hdk hsymm htrans
    have hpos : 0 < (tableEntries t).countP (fun y => kc y.k b.k) :=
      List.countP_pos_iff.mpr ⟨b, hbent, hrefl b.k⟩
    omega
  simp only [HASH_Retrieve_Extended, dec_ref_ppBucketTable, dec_ref_uSize, r1]
  rw [r6 (KEY_TO_INDEX hf b.k (t.uSize * 2))]
  simp only [tableEntries]
  by_cases hjb : kc j b.k = true
  · -- the inserted key duplicates b's key: b is the last matcher in the
    -- walk order, hence the first after the chain-reversing rehash
    obtain ⟨i0, hi0, hbi0⟩ := mem_flatten_getD t.ppBucketTable b hbent
    have hplace := hwf.2.2 i0 hi0 b hbi0
    have hieq : KEY_TO_INDEX hf b.k t.uSize = KEY_TO_INDEX hf j t.uSize := by
      unfold KEY_TO_INDEX
      rw [hhash j b.k t.uSize hjb]
    have hi0eq : i0 = KEY_TO_INDEX hf j t.uSize := by rw [← hplace, hieq]
    rw [hi0eq] at hbi0
    obtain ⟨d1, d2, hchain⟩ := List.append_of_mem hbi0
    have hflat : (_ChainInsert hf ⟨BUCKET_SIG, v, j⟩ t.ppBucketTable t.uSize).flatten
        = ((t.ppBucketTable.take (KEY_TO_INDEX hf j t.uSize)).flatten
            ++ Bucket.mk BUCKET_SIG v j :: d1)
          ++ b :: (d2 ++ (t.ppBucketTable.drop (KEY_TO_INDEX hf j t.uSize + 1)).flatten) := by
      show (t.ppBucketTable.set (KEY_TO_INDEX hf j t.uSize)
        (⟨BUCKET_SIG, v, j⟩ :: t.ppBucketTable.getD (KEY_TO_INDEX hf j t.uSize) [])).flatten = _
      rw [flatten_set _ _ _ hi, hchain]
      simp [List.append_assoc]
    have hcntCI : ((_ChainInsert hf ⟨BUCKET_SIG, v, j⟩ t.ppBucketTable t.uSize).flatten).countP
        (fun y => kc y.k b.k) = 2 := by
      rw [hCIperm.countP_eq, List.countP_cons, hcount1]
      simp [hjb]
    have hcntB : (d2 ++ (t.ppBucketTable.drop (KEY_TO_INDEX hf j t.uSize + 1)).flatten).countP
        (fun y => kc y.k b.k) = 0 := by
      rw [hflat, List.countP_append, List.countP_cons] at hcntCI
      have hApos : 0 < ((t.ppBucketTable.take (KEY_TO_INDEX hf j t.uSize)).flatten
          ++ Bucket.mk BUCKET_SIG v j :: d1).countP (fun y => kc y.k b.k) :=
        List.countP_pos_iff.mpr ⟨⟨BUCKET_SIG, v, j⟩,
          List.mem_append_right _ (List.mem_cons_self _ _), hjb⟩
      simp only [hrefl b.k, eq_self_iff_true, if_true] at hcntCI
      omega
    rw [hflat, List.filter_append,
      List.filter_cons_of_pos (by simp), List.reverse_append, List.reverse_cons]
    have hnomatchrev : ∀ y ∈ ((d2 ++ (t.ppBucketTable.drop
        (KEY_TO_INDEX hf j t.uSize + 1)).flatten).filter
          (fun y => KEY_TO_INDEX hf y.k (t.uSize * 2) ==
            KEY_TO_INDEX hf b.k (t.uSize * 2))).reverse,
        kc y.k b.k = false := by
      intro y hy
      rw [List.mem_reverse, List.mem_filter] at hy
      have := List.countP_eq_zero.mp hcntB y hy.1
      cases h : kc y.k b.k
      · rfl
      · exact absurd h this
    rw [List.append_assoc]
    rw [chainRetrieve_append_no_match kc b.k _ _ hnomatchrev]
    exact chainRetrieve_cons_match kc b.k b _ (hrefl b.k)
  · -- the inserted key does not collide with b's: b stays the unique matcher
    have hbCI : b ∈ (_ChainInsert hf ⟨BUCKET_SIG, v, j⟩ t.ppBucketTable t.uSize).flatten :=
      hCIperm.mem_iff.mpr (List.mem_cons.mpr (Or.inr hbent))
    apply chainRetrieve_unique
    · exact ⟨b, by rw [List.mem_reverse, List.mem_filter]; exact ⟨hbCI, by simp⟩,
        hrefl b.k⟩
    · intro y hy hyk
      rw [List.mem_reverse, List.mem_filter] at hy
      have hysplit : y = ⟨BUCKET_SIG, v, j⟩ ∨ y ∈ tableEntries t :=
        List.mem_cons.mp (hCIperm.mem_iff.mp hy.1)
      rcases hysplit with h1 | h1
      · rw [h1] at hyk
        exact absurd hyk hjb
      · have hle := distinct_countP_le_one kc (tableEntries t) b.k hdk hsymm htrans
        have heq := countP_le_one_unique hle h1 hbent hyk (hrefl b.k)
        rw [heq]

end ClaimsE

section ClaimsF

variable {K : Type}

/-- Witness for C2: the size-2 table holding only key 0 (value 7) grows to
size 4 on inserting key 1 (count becomes 2, 2*2 > 2), and key 0 still
retrieves 7 before and after. -/
theorem C2_witness :
    (HASH_Insert_Extended exHf exOne2 1 5 true true).1 = true ∧
    (HASH_Insert_Extended exHf exOne2 1 5 true true).2.uSize = exOne2.uSize * 2 ∧
    (∀ b ∈ tableEntries exOne2,
      HASH_Retrieve_Extended exHf exKc exOne2 b.k = b.v ∧
      HASH_Retrieve_Extended exHf exKc
        (HASH_Insert_Extended exHf exOne2 1 5 true true).2 b.k = b.v) :=
  C2_grow_trigger_preserves_entries exHf exKc exOne2 1 5
    (by unfold WF Basic tableEntries KEY_TO_INDEX; decide)
    (by unfold DistinctKeys tableEntries; decide)
    (by
      intro a b
      by_cases h : a = b
      · rw [h]
      · have h1 : (a == b) = false := beq_eq_false_iff_ne.mpr h
        have h2 : (b == a) = false := beq_eq_false_iff_ne.mpr (fun hh => h hh.symm)
        show (a == b) = (b == a)
        rw [h1, h2])
    (by
      intro a b c h1 h2
      simp only [exKc, beq_iff_eq] at h1 h2 ⊢
      omega)
    (by intro a; simp [exKc])
    (by
      intro a b s h
      simp only [exKc, beq_iff_eq] at h
      simp [exHf, h])
    (by decide)

end ClaimsF

/-! Characterization of the iteration loop for C9. -/

section IterLemmas

variable {K : Type} (cb : K → Nat → Nat)

theorem listIterate_cons_ok (e : K × Nat) (l : List (K × Nat))
    (he : cb e.1 e.2 = PVRSRV_OK) :
    listIterate cb (e :: l) = ((listIterate cb l).1, e :: (listIterate cb l).2) := by
  simp only [listIterate]
  rw [if_neg (by simp [he])]

theorem listIterate_cons_stop (e : K × Nat) (l : List (K × Nat))
    (he : cb e.1 e.2 ≠ PVRSRV_OK) :
    listIterate cb (e :: l) = (cb e.1 e.2, [e]) := by
  simp only [listIterate]
  rw [if_pos he]

theorem listIterate_all_ok (l : List (K × Nat))
    (h : ∀ e ∈ l, cb e.1 e.2 = PVRSRV_OK) :
    listIterate cb l = (PVRSRV_OK, l) := by
  induction l with
  | nil => rfl
  | cons e rest ih =>
    rw [listIterate_cons_ok cb e rest (h e (by simp)),
      ih (fun x hx => h x (by simp [hx]))]

theorem listIterate_stop (pre : List (K × Nat)) (e : K × Nat)
    (post : List (K × Nat))
    (hpre : ∀ x ∈ pre, cb x.1 x.2 = PVRSRV_OK) (he : cb e.1 e.2 ≠ PVRSRV_OK) :
    listIterate cb (pre ++ e :: post) = (cb e.1 e.2, pre ++ [e]) := by
  induction pre with
  | nil =>
    rw [List.nil_append, listIterate_cons_stop cb e post he]
    rfl
  | cons x rest ih =>
    rw [List.cons_append, listIterate_cons_ok cb x _ (hpre x (by simp)),
      ih (fun y hy => hpre y (by simp [hy]))]
    rfl

theorem listIterate_append (l1 l2 : List (K × Nat)) :
    listIterate cb (l1 ++ l2) =
      if (listIterate cb l1).1 = PVRSRV_OK
      then ((listIterate cb l2).1, (listIterate cb l1).2 ++ (listIterate cb l2).2)
      else listIterate cb l1 := by
  induction l1 with
  | nil => simp [listIterate]
  | cons e rest ih =>
    by_cases he : cb e.1 e.2 = PVRSRV_OK
    · rw [List.cons_append, listIterate_cons_ok cb e (rest ++ l2) he, ih,
        listIterate_cons_ok cb e rest he]
      by_cases hr : (listIterate cb rest).1 = PVRSRV_OK
      · simp [hr]
      · simp [hr]
    · rw [List.cons_append, listIterate_cons_stop cb e (rest ++ l2) he,
        listIterate_cons_stop cb e rest he]
      simp [he]

theorem chainIterate_eq (c : List (Bucket K)) :
    chainIterate cb c = listIterate cb (c.map (fun b => (b.k, b.v))) := by
  induction c with
  | nil => rfl
  | cons b rest ih =>
    simp only [chainIterate, List.map_cons, listIterate]
    rw [ih]

theorem tableIterate_eq (L : List (List (Bucket K))) :
    tableIterate cb L
      = listIterate cb ((L.map (fun c => c.map (fun b => (b.k, b.v)))).flatten) := by
  induction L with
  | nil => rfl
  | cons chain rest ih =>
    simp only [tableIterate, List.map_cons, List.flatten_cons]
    rw [listIterate_append, chainIterate_eq, ih]
    by_cases hc1 : (listIterate cb (chain.map (fun b => (b.k, b.v)))).1 = PVRSRV_OK
    · rw [if_pos hc1, if_neg (by simp [hc1])]
    · rw [if_neg hc1, if_pos (by simpa using hc1)]

theorem flatten_map_pairs (L : List (List (Bucket K))) :
    (L.map (fun c => c.map (fun b => (b.k, b.v)))).flatten
      = L.flatten.map (fun b => (b.k, b.v)) := by
  induction L with
  | nil => rfl
  | cons c rest ih =>
    simp only [List.map_cons, List.flatten_cons, List.map_append, ih]

end IterLemmas

section ClaimsG

variable {K : Type}

/-- C9: for every well-formed table and visitor callback, iterate invokes
the callback once per live entry in slot/chain order; if every invocation
returns success the trace of invocations is exactly the entry list (hence
exactly count entries are visited) and PVRSRV_OK is returned, and if some
invocation returns a non-success status, iteration stops immediately (the
trace is the preceding successful invocations plus the failing one, nothing
further) and that status is returned to the caller. -/
theorem C9_iterate_visits_and_stops (hf : K → Nat → Nat) (t : HASH_TABLE K)
    (cb : K → Nat → Nat) (hwf : WF hf t) :
    ((∀ e ∈ iterEntries t, cb e.1 e.2 = PVRSRV_OK) →
      HASH_Iterate cb t = PVRSRV_OK ∧
      (tableIterate cb t.ppBucketTable).2 = iterEntries t ∧
      (tableIterate cb t.ppBucketTable).2.length = t.uCount) ∧
    (∀ (pre : List (K × Nat)) (e : K × Nat) (post : List (K × Nat)),
      iterEntries t = pre ++ e :: post →
      (∀ x ∈ pre, cb x.1 x.2 = PVRSRV_OK) →
      cb e.1 e.2 ≠ PVRSRV_OK →
      HASH_Iterate cb t = cb e.1 e.2 ∧
      (tableIterate cb t.ppBucketTable).2 = pre ++ [e]) := by
  constructor
  · intro h
    have htab : tableIterate cb t.ppBucketTable = listIterate cb (iterEntries t) :=
      tableIterate_eq cb t.ppBucketTable
    rw [listIterate_all_ok cb _ h] at htab
    refine ⟨?_, ?_, ?_⟩
    · show (tableIterate cb t.ppBucketTable).1 = PVRSRV_OK
      rw [htab]
    · rw [htab]
    · rw [htab]
      show (iterEntries t).length = t.uCount
      rw [iterEntries, flatten_map_pairs, List.length_map]
      exact hwf.2.1.symm
  · intro pre e post hsplit hpre he
    have htab : tableIterate cb t.ppBucketTable = listIterate cb (iterEntries t) :=
      tableIterate_eq cb t.ppBucketTable
    rw [hsplit, listIterate_stop cb pre e post hpre he] at htab
    exact ⟨by show (tableIterate cb t.ppBucketTable).1 = cb e.1 e.2; rw [htab],
      by rw [htab]⟩

/-- Witness for C9 on the two-entry table: the always-succeeding callback
makes iterate visit both entries (count = 2) and return PVRSRV_OK, and the
callback failing on key 1 makes iterate return status 3 after visiting the
key-0 entry and the failing key-1 entry only. -/
theorem C9_witness :
    (HASH_Iterate exCbOk exTwo8 = PVRSRV_OK ∧
     (tableIterate exCbOk exTwo8.ppBucketTable).2 = iterEntries exTwo8 ∧
     (tableIterate exCbOk exTwo8.ppBucketTable).2.length = exTwo8.uCount) ∧
    (HASH_Iterate exCbFail exTwo8 = exCbFail 1 9 ∧
     (tableIterate exCbFail exTwo8.ppBucketTable).2 = [(0, 7)] ++ [(1, 9)]) :=
  ⟨(C9_iterate_visits_and_stops exHf exTwo8 exCbOk
      (by unfold WF Basic tableEntries KEY_TO_INDEX; decide)).1 (by decide),
   (C9_iterate_visits_and_stops exHf exTwo8 exCbFail
      (by unfold WF Basic tableEntries KEY_TO_INDEX; decide)).2
      [(0, 7)] (1, 9) [] (by decide) (by decide) (by decide)⟩

end ClaimsG
